import Mathlib

/-!
Shallow embedding of `src/notestream/mindmap_renderer.py` (NoteStream).

The mind-map engine is a pure pipeline

  markdown lines → parser → decorated tree → layout → normalized layout
                 → vector-graphic primitives / page-drawing primitives.

Machine floats of the source are modelled as rationals (`ℚ`): the layout
arithmetic uses only `+ - * / min max`, which are exact here.  A markdown
input string is modelled as its list of lines (the result of Python's
`str.splitlines()`); no line therefore contains a line separator.
-/

namespace NoteStream

/-- Parse-time tree (`MindMapNode` in the source): a title and the ordered
children. -/
inductive MindMapNode where
  | mk (title : String) (children : List MindMapNode)
deriving Inhabited

def MindMapNode.title : MindMapNode → String
  | .mk t _ => t

def MindMapNode.children : MindMapNode → List MindMapNode
  | .mk _ cs => cs

/-- Flattened output-facing record (`PositionedNode` in the source). -/
structure PositionedNode where
  node_id : Nat
  title : String
  lines : List String
  depth : Nat
  x : ℚ
  y : ℚ
  width : ℚ
  height : ℚ
deriving DecidableEq, Inhabited

/-- Layout aggregate (`MindMapLayout` in the source). -/
structure MindMapLayout where
  width : ℚ
  height : ℚ
  nodes : List PositionedNode
  edges : List (Nat × Nat)
deriving DecidableEq, Inhabited

/-- Per-node data of the decorated render tree (`_RenderNode` minus the
`children` field, which lives in the surrounding inductive). -/
structure RData where
  node_id : Nat
  title : String
  depth : Nat
  lines : List String
  width : ℚ
  height : ℚ
  x : ℚ
  y : ℚ
deriving DecidableEq, Inhabited

/-- Decorated render tree (`_RenderNode` in the source). -/
inductive RNode where
  | mk (data : RData) (children : List RNode)
deriving Inhabited

def RNode.data : RNode → RData
  | .mk d _ => d

def RNode.children : RNode → List RNode
  | .mk _ cs => cs

/-- Layout constants of the source. -/
def H_STEP : ℚ := 420
def V_GAP : ℚ := 26
def TOP_LEVEL_GAP : ℚ := 48
def MARGIN : ℚ := 130
def MIN_NODE_WIDTH : ℚ := 135
def MAX_NODE_WIDTH : ℚ := 360
def LINE_HEIGHT : ℚ := 16
def NODE_PADDING_X : ℚ := 28
def NODE_PADDING_Y : ℚ := 14

/-- Python whitespace (the character class `\s` of `re`, which is also the
set used by `str.strip`/`str.split`): space, tab, the ASCII control
separators and the Unicode space characters. -/
def py_ws (c : Char) : Bool :=
  decide (c.toNat ∈ ([9, 10, 11, 12, 13, 28, 29, 30, 31, 32, 0x85, 0xa0,
      0x1680, 0x2028, 0x2029, 0x202f, 0x205f, 0x3000] : List Nat) ∨
    (0x2000 ≤ c.toNat ∧ c.toNat ≤ 0x200a))

/-- Python `str.strip()` on a character list. -/
def py_strip (l : List Char) : List Char :=
  ((l.dropWhile py_ws).reverse.dropWhile py_ws).reverse

/-- Scan for the first `)` (the non-greedy `(.*?)\)` tail of the link
pattern); `.` does not match a newline.  Returns the remainder after the
closing parenthesis. -/
def link_close : List Char → Option (List Char)
  | [] => none
  | c :: t => if c = ')' then some t else if c = '\n' then none else link_close t

theorem link_close_length : ∀ {s rest : List Char},
    link_close s = some rest → rest.length < s.length := by
  intro s
  induction s with
  | nil => intro rest h; simp [link_close] at h
  | cons c t ih =>
    intro rest h
    simp only [link_close] at h
    split at h
    · cases h; simp
    · split at h
      · cases h
      · exact Nat.lt_trans (ih h) (by simp)

/-- Body of the non-greedy link pattern `\[(.*?)\]\((.*?)\)`, scanning after
an opening `[`: grow the first group one character at a time, and at each
`](` try to close the second group.  Returns the first group and the
remainder after the match. -/
def link_body : List Char → List Char → Option (List Char × List Char)
  | [], _ => none
  | c :: t, acc =>
    if c = ']' ∧ t.head? = some '(' then
      match link_close t.tail with
      | some rest => some (acc.reverse, rest)
      | none => link_body t (c :: acc)
    else if c = '\n' then none
    else link_body t (c :: acc)

theorem link_body_length : ∀ (s : List Char), ∀ acc g rest,
    link_body s acc = some (g, rest) → rest.length + 3 ≤ s.length := by
  intro s
  induction s with
  | nil => intro acc g rest h; simp [link_body] at h
  | cons c t ih =>
    intro acc g rest h
    rw [link_body] at h
    split at h
    · rename_i hc
      cases hclose : link_close t.tail with
      | some r =>
        rw [hclose] at h
        simp only [Option.some.injEq, Prod.mk.injEq] at h
        obtain ⟨-, h2⟩ := h
        subst h2
        have hlen := link_close_length hclose
        simp only [List.length_tail] at hlen
        simp only [List.length_cons]
        omega
      | none =>
        rw [hclose] at h
        have := ih _ _ _ h
        simp only [List.length_cons]
        omega
    · split at h
      · cases h
      · have := ih _ _ _ h
        simp only [List.length_cons]
        omega

/-- Scanning loop of the link substitution.  The first argument is a plain
termination counter: every step consumes at least one character (by
`link_body_length` a match consumes at least four), so a counter equal to
the input length never runs out and the exhausted branch is unreachable. -/
def link_sub_go : Nat → List Char → List Char
  | 0, l => l
  | _ + 1, [] => []
  | fuel + 1, '[' :: t =>
    match link_body t [] with
    | some (g, rest) => g ++ link_sub_go fuel rest
    | none => '[' :: link_sub_go fuel t
  | fuel + 1, c :: t => c :: link_sub_go fuel t

/-- `re.sub(r"\[(.*?)\]\((.*?)\)", r"\1", ·)`: replace each markdown link
by its text, scanning left to right and continuing after each match. -/
def link_sub (l : List Char) : List Char :=
  link_sub_go l.length l

/-- One pass of Python `str.replace(ab, "")` for a two-character pattern:
left-to-right, non-overlapping. -/
def remove_pair (a b : Char) : List Char → List Char
  | x :: y :: t =>
    if x = a ∧ y = b then remove_pair a b t else x :: remove_pair a b (y :: t)
  | l => l

/-- Tail of the tag pattern `<[^>]+>` after `<` and one non-`>` character:
skip to the first `>`. -/
def tag_tail : List Char → Option (List Char)
  | [] => none
  | c :: t => if c = '>' then some t else tag_tail t

theorem tag_tail_length : ∀ {s rest : List Char},
    tag_tail s = some rest → rest.length < s.length := by
  intro s
  induction s with
  | nil => intro rest h; simp [tag_tail] at h
  | cons c t ih =>
    intro rest h
    simp only [tag_tail] at h
    split at h
    · cases h; simp
    · exact Nat.lt_trans (ih h) (by simp)

/-- Match `[^>]+>` (at least one non-`>` character, then the first `>`),
returning the remainder. -/
def tag_end : List Char → Option (List Char)
  | [] => none
  | c :: t => if c = '>' then none else tag_tail t

theorem tag_end_length : ∀ {s rest : List Char},
    tag_end s = some rest → rest.length < s.length := by
  intro s
  match s with
  | [] => intro rest h; simp [tag_end] at h
  | c :: t =>
    intro rest h
    simp only [tag_end] at h
    split at h
    · cases h
    · exact Nat.lt_trans (tag_tail_length h) (by simp)

/-- Scanning loop of the tag substitution, with the same kind of
termination counter as `link_sub_go` (a match consumes at least two
characters, by `tag_end_length`). -/
def tag_sub_go : Nat → List Char → List Char
  | 0, l => l
  | _ + 1, [] => []
  | fuel + 1, '<' :: t =>
    match tag_end t with
    | some rest => tag_sub_go fuel rest
    | none => '<' :: tag_sub_go fuel t
  | fuel + 1, c :: t => c :: tag_sub_go fuel t

/-- `re.sub(r"<[^>]+>", "", ·)`: strip HTML-like tags. -/
def tag_sub (l : List Char) : List Char :=
  tag_sub_go l.length l

mutual
/-- `re.sub(r"\s+", " ", ·)`: collapse whitespace runs to a single space. -/
def collapse_ws : List Char → List Char
  | [] => []
  | c :: t => if py_ws c then ' ' :: collapse_skip t else c :: collapse_ws t

/-- Inside a whitespace run: drop until the first non-whitespace character. -/
def collapse_skip : List Char → List Char
  | [] => []
  | c :: t => if py_ws c then collapse_skip t else c :: collapse_ws t
end

/-- `_clean_text` of the source: strip, drop link syntax, remove backtick /
`**` / `__` / `*` markers, strip tags, collapse whitespace, strip. -/
def clean_text (text : String) : String :=
  let l := py_strip text.toList
  let l := link_sub l
  let l := l.filter (fun c => c ≠ Char.ofNat 96)
  let l := remove_pair '*' '*' l
  let l := remove_pair '_' '_' l
  let l := l.filter (fun c => c ≠ '*')
  let l := tag_sub l
  let l := py_strip (collapse_ws l)
  String.mk l

/-- Chunking loop with a plain termination counter: each step consumes at
least one character (for `k ≥ 1` exactly `k`), so a counter equal to the
input length never runs out. -/
def chunks_go : Nat → Nat → List Char → List (List Char)
  | 0, _, _ => []
  | _ + 1, _, [] => []
  | fuel + 1, k, c :: t => (c :: t).take k :: chunks_go fuel k (t.drop (k - 1))

/-- Fixed-size chunks (`text[idx : idx + max_chars]` for
`idx in range(0, len(text), max_chars)`).  For `k = 0` the Python call
raises; this total model is only ever applied with `k ≥ 1`. -/
def chunks_of (k : Nat) (l : List Char) : List (List Char) :=
  chunks_go l.length k l

mutual
/-- Python `str.split()` with no argument: maximal runs of non-whitespace.
Outside a word, whitespace is skipped. -/
def split_ws : List Char → List (List Char)
  | [] => []
  | c :: t => if py_ws c then split_ws t else split_word [c] t

/-- Inside a word: accumulate the word (reversed) until whitespace or the
end of the input. -/
def split_word (acc : List Char) : List Char → List (List Char)
  | [] => [acc.reverse]
  | c :: t => if py_ws c then acc.reverse :: split_ws t else split_word (c :: acc) t
end

/-- The greedy word-accumulation loop of `_wrap_text` over the word list,
carrying the emitted lines and the current line. -/
def wrap_loop (k : Nat) : List (List Char) → List (List Char) → List Char →
    List (List Char)
  | [], lines, cur => if cur = [] then lines else lines ++ [cur]
  | w :: ws, lines, cur =>
    if k < w.length then
      wrap_loop k ws ((if cur = [] then lines else lines ++ [cur]) ++ chunks_of k w) []
    else if cur = [] then
      wrap_loop k ws lines w
    else if (cur ++ ' ' :: w).length ≤ k then
      wrap_loop k ws lines (cur ++ ' ' :: w)
    else
      wrap_loop k ws (lines ++ [cur]) w

/-- `_wrap_text` of the source. -/
def wrap_text (text : String) (max_chars : Nat) : List String :=
  let t := py_strip text.toList
  if t = [] then [""]
  else if ' ' ∉ t ∧ max_chars < t.length then
    ((chunks_of max_chars t).take 6).map String.mk
  else
    ((wrap_loop max_chars (split_ws t) [] []).take 6).map String.mk

/-- Column width of a whitespace prefix after `str.expandtabs(2)`: a tab
advances to the next multiple of 2, every other character counts 1. -/
def expand_len : List Char → Nat → Nat
  | [], col => col
  | c :: t, col => expand_len t (col + (if c = '\t' then 2 - col % 2 else 1))

/-- Match `_BULLET_RE = ^(\s*)[-*]\s+(.*)$` against a raw line, returning
the expanded indent width and the text group. -/
def bullet_match (line : List Char) : Option (Nat × List Char) :=
  let ws := line.takeWhile py_ws
  match line.dropWhile py_ws with
  | m :: r =>
    if m = '-' ∨ m = '*' then
      match r with
      | c :: _ => if py_ws c then some (expand_len ws 0, r.dropWhile py_ws) else none
      | [] => none
    else none
  | [] => none

/-- Match `_HEADING_RE = ^#{1,6}\s+(.*)$` against the stripped line,
returning the text group. -/
def heading_match (line : List Char) : Option (List Char) :=
  let s := py_strip line
  let hs := s.takeWhile (fun c => c = '#')
  if 1 ≤ hs.length ∧ hs.length ≤ 6 then
    match s.dropWhile (fun c => c = '#') with
    | c :: r => if py_ws c then some (r.dropWhile py_ws) else none
    | [] => none
  else none

/-- The line scan of `parse_mind_map_markdown`: record the first heading
whose cleaned text is non-empty (`if heading_match and not heading_title`)
and collect every bullet with non-empty cleaned text together with its
expanded indent. -/
def scan_lines : List String → Option String → List (Nat × String) →
    Option String × List (Nat × String)
  | [], ht, bs => (ht, bs)
  | line :: rest, ht, bs =>
    let l := line.toList
    let ht' := match heading_match l with
      | some g =>
        if ht = none ∨ ht = some "" then some (clean_text (String.mk g)) else ht
      | none => ht
    let bs' := match bullet_match l with
      | some (ind, txt) =>
        let t := clean_text (String.mk txt)
        if t = "" then bs else bs ++ [(ind, t)]
      | none => bs
    scan_lines rest ht' bs'

/-- Python `min` over a list of naturals (never applied to `[]` by the
parser, which guards on the bullet list being non-empty). -/
def list_min_nat (l : List Nat) : Nat :=
  match l with
  | [] => 0
  | x :: t => t.foldl Nat.min x

/-- A frame of the indent stack: `(depth, title, children so far)`. -/
abbrev Frame := Int × String × List MindMapNode

/-- Close the top frame into its parent: the finished node is appended to
the parent's children (document order). -/
def pop_frame (top parent : Frame) : Frame :=
  (parent.1, parent.2.1, parent.2.2 ++ [MindMapNode.mk top.2.1 top.2.2])

/-- Popping loop on a stack split into its top frame and the frames below
it: close the top into the frame below while the condition holds. -/
def pop_go (d : Int) : Frame → List Frame → Frame × List Frame
  | top, [] => (top, [])
  | top, parent :: rest =>
    if d ≤ top.1 then pop_go d (pop_frame top parent) rest
    else (top, parent :: rest)

/-- Pop `while len(stack) > 1 and depth <= stack[-1][0]`. -/
def pop_while (d : Int) : List Frame → List Frame
  | [] => []
  | top :: rest =>
    let p := pop_go d top rest
    p.1 :: p.2

/-- Feed the normalized bullets through the indent stack. -/
def push_all : List (Nat × String) → List Frame → List Frame
  | [], st => st
  | (d, t) :: rest, st =>
    push_all rest (((d : Int), t, ([] : List MindMapNode)) :: pop_while (d : Int) st)

/-- Fold a top frame into all the frames below it. -/
def collapse_go : Frame → List Frame → Frame
  | f, [] => f
  | top, parent :: rest => collapse_go (pop_frame top parent) rest

/-- Close every remaining frame down to the pseudo-root. -/
def collapse_stack : List Frame → Frame
  | [] => ((-1 : Int), "", [])
  | top :: rest => collapse_go top rest

/-- Children of the synthetic pseudo-root after the stack pass over the
normalized `(depth, text)` bullets. -/
def build_children (normalized : List (Nat × String)) : List MindMapNode :=
  (collapse_stack (push_all normalized [((-1 : Int), "__pseudo__", [])])).2.2

/-- Python `min` over a non-empty list of rationals (the `[]` value 0 is
never reached: every caller guards on non-emptiness, as the source does by
construction). -/
def list_min (l : List ℚ) : ℚ :=
  match l with
  | [] => 0
  | x :: t => t.foldl min x

/-- Python `max` over a non-empty list of rationals. -/
def list_max (l : List ℚ) : ℚ :=
  match l with
  | [] => 0
  | x :: t => t.foldl max x

/-- `heading_title or "Mind Map"`. -/
def final_title : Option String → String
  | some t => if t = "" then "Mind Map" else t
  | none => "Mind Map"

/-- `parse_mind_map_markdown` of the source, over the input's lines. -/
def parse_mind_map_markdown (lines : List String) : Option MindMapNode :=
  let (ht, bullets) := scan_lines lines none []
  if bullets = [] then none
  else
    let min_indent := list_min_nat (bullets.map (fun b => b.1))
    let normalized := bullets.map (fun b => ((b.1 - min_indent) / 2, b.2))
    match build_children normalized with
    | [c] => some c
    | cs => some (MindMapNode.mk (final_title ht) cs)

mutual
/-- The pre-order decoration pass of `_decorate_tree`: wrapped lines, box
size, identifier from the running counter.  Returns the decorated node and
the next free identifier. -/
def decorate_visit : MindMapNode → Nat → Nat → RNode × Nat
  | .mk title children, depth, nid =>
    let wrapped := wrap_text title (max 14 (24 - depth))
    let text_width : ℚ := ((wrapped.map String.length).foldl max 0 : Nat) * (68 / 10)
    let width := max MIN_NODE_WIDTH (min MAX_NODE_WIDTH (text_width + NODE_PADDING_X))
    let height := max 40 (NODE_PADDING_Y + (wrapped.length : ℚ) * LINE_HEIGHT)
    let p := decorate_children children (depth + 1) (nid + 1)
    (RNode.mk ⟨nid, title, depth, wrapped, width, height, 0, 0⟩ p.1, p.2)

/-- Decorate a sibling list in order, threading the identifier counter. -/
def decorate_children : List MindMapNode → Nat → Nat → List RNode × Nat
  | [], _, nid => ([], nid)
  | c :: rest, depth, nid =>
    let p1 := decorate_visit c depth nid
    let p2 := decorate_children rest depth p1.2
    (p1.1 :: p2.1, p2.2)
end

/-- `_decorate_tree` of the source. -/
def decorate_tree (node : MindMapNode) : RNode :=
  (decorate_visit node 0 0).1

mutual
/-- `_subtree_height` of the source. -/
def subtree_height : RNode → ℚ
  | .mk d cs =>
    if cs.isEmpty then d.height
    else max d.height (sh_list cs + V_GAP * ((cs.length : ℚ) - 1))

/-- `sum(_subtree_height(child) for child in children)`. -/
def sh_list : List RNode → ℚ
  | [] => 0
  | c :: rest => subtree_height c + sh_list rest
end

/-- A stacked run's total extent: `sum of subtree heights + gap * (n - 1)`,
as computed by `_subtree_height`, `_place_subtree` (gap `V_GAP`) and
`place_side` (gap `TOP_LEVEL_GAP`) for a non-empty child list. -/
def run_total (gap : ℚ) (cs : List RNode) : ℚ :=
  sh_list cs + gap * ((cs.length : ℚ) - 1)

def root_y (t : RNode) : ℚ := t.data.y

mutual
/-- `_place_subtree` of the source, as a function returning the positioned
copy of the subtree (the source mutates `x`/`y` in place). -/
def place_subtree : RNode → ℚ → Nat → ℚ → RNode
  | .mk d cs, side, depth, center_y =>
    match cs with
    | [] => .mk { d with x := side * (depth : ℚ) * H_STEP, y := center_y } []
    | c :: rest =>
      let total := run_total V_GAP (c :: rest)
      let cs' := place_run V_GAP side (depth + 1) (c :: rest) (center_y - total / 2)
      let ys := cs'.map root_y
      .mk { d with x := side * (depth : ℚ) * H_STEP, y := ys.sum / (ys.length : ℚ) } cs'

/-- The stacking loop shared by `_place_subtree` and `place_side`: place
each child at the centre of its band, advancing by its subtree height plus
the gap. -/
def place_run : ℚ → ℚ → Nat → List RNode → ℚ → List RNode
  | _, _, _, [], _ => []
  | gap, side, depth, c :: rest, start =>
    let ch := subtree_height c
    place_subtree c side depth (start + ch / 2) ::
      place_run gap side depth rest (start + ch + gap)
end

mutual
/-- The node half of `_collect_nodes`: depth-first, parent before children. -/
def collect_nodes : RNode → List PositionedNode
  | .mk d cs => ⟨d.node_id, d.title, d.lines, d.depth, d.x, d.y, d.width, d.height⟩ :: collect_list cs

def collect_list : List RNode → List PositionedNode
  | [] => []
  | c :: rest => collect_nodes c ++ collect_list rest
end

mutual
/-- The edge half of `_collect_nodes`: each `(parent id, child id)` pair,
followed by the child subtree's own edges. -/
def collect_edges : RNode → List (Nat × Nat)
  | .mk d cs => edge_list d.node_id cs

def edge_list : Nat → List RNode → List (Nat × Nat)
  | _, [] => []
  | pid, c :: rest => (pid, c.data.node_id) :: (collect_edges c ++ edge_list pid rest)
end

/-- `_normalize_bounds` of the source: returns the canvas width and height
and the shifted node list (the source mutates the nodes in place). -/
def normalize_bounds (nodes : List PositionedNode) : ℚ × ℚ × List PositionedNode :=
  let min_x := list_min (nodes.map (fun n => n.x - n.width / 2))
  let max_x := list_max (nodes.map (fun n => n.x + n.width / 2))
  let min_y := list_min (nodes.map (fun n => n.y - n.height / 2))
  let max_y := list_max (nodes.map (fun n => n.y + n.height / 2))
  let shift_x := MARGIN - min_x
  let shift_y := MARGIN - min_y
  ((max_x - min_x) + MARGIN * 2, (max_y - min_y) + MARGIN * 2,
    nodes.map (fun n => { n with x := n.x + shift_x, y := n.y + shift_y }))

/-- The greedy loop of `_split_top_level_children`, carrying both groups
and their accumulated subtree heights. -/
def split_go : List RNode → List RNode → List RNode → ℚ → ℚ → List RNode × List RNode
  | [], left, right, _, _ => (left, right)
  | c :: t, left, right, lh, rh =>
    let h := subtree_height c
    if lh ≤ rh then split_go t (left ++ [c]) right (lh + h) rh
    else split_go t left (right ++ [c]) lh (rh + h)

/-- `_split_top_level_children` of the source: greedy pass, then the two
sequential emptiness repairs. -/
def split_top_level_children (children : List RNode) : List RNode × List RNode :=
  let p := split_go children [] [] 0 0
  let q := if p.1.isEmpty then (p.2.take 1, p.2.drop 1) else p
  if q.2.isEmpty then (q.1.drop 1, q.1.take 1) else q

/-- The greedy pass of `_split_top_level_children` recorded as one flag per
child in document order (`true` = left group).  This bookkeeping has no
counterpart in the source, which mutates child objects in place and later
walks `root.children` in their original order; the flags let the embedding
reproduce that original collection order. -/
def side_flags_go : List RNode → ℚ → ℚ → List Bool
  | [], _, _ => []
  | c :: t, lh, rh =>
    let h := subtree_height c
    if lh ≤ rh then true :: side_flags_go t (lh + h) rh
    else false :: side_flags_go t lh (rh + h)

/-- Side flags after the emptiness repair: when the greedy pass put every
child in the left group, the first child moves to the right group (the
`left[:1]` repair of the source); an all-right outcome cannot occur because
the first child always joins the left group. -/
def side_flags (cs : List RNode) : List Bool :=
  let fs := side_flags_go cs 0 0
  if fs.all (fun b => b) then
    match fs with
    | [] => []
    | _ :: t => false :: t.map (fun _ => true)
  else fs

/-- The children carrying a given flag, in order. -/
def select_side (b : Bool) : List Bool → List RNode → List RNode
  | f :: fs, c :: cs =>
    if f = b then c :: select_side b fs cs else select_side b fs cs
  | _, _ => []

/-- Reassemble the placed children in their original document order from
the two placed side lists, guided by the side flags. -/
def merge_sides : List Bool → List RNode → List RNode → List RNode
  | true :: fs, l :: ls, rs => l :: merge_sides fs ls rs
  | false :: fs, ls, r :: rs => r :: merge_sides fs ls rs
  | _, _, _ => []

/-- `place_side` of `_compute_layout`: stack one side's top-level subtrees
around the origin with `TOP_LEVEL_GAP`, at depth 1. -/
def place_side_list (cs : List RNode) (side : ℚ) : List RNode :=
  place_run TOP_LEVEL_GAP side 1 cs (-(run_total TOP_LEVEL_GAP cs) / 2)

/-- The placed tree of `_compute_layout` before flattening: the root is
pinned at the origin, the top-level children are split into sides, each
side is stacked around the origin at depth 1, and the placed children are
kept in their original document order. -/
def placed_root (root_node : MindMapNode) : RNode :=
  let root := decorate_tree root_node
  let rd := { root.data with x := (0 : ℚ), y := (0 : ℚ) }
  match root.children with
  | [] => RNode.mk rd []
  | c :: rest =>
    let cs := c :: rest
    let lr := split_top_level_children cs
    let fs := side_flags cs
    let pl := place_side_list lr.1 (-1)
    let pr := place_side_list lr.2 1
    RNode.mk rd (merge_sides fs pl pr)

/-- `_compute_layout` of the source. -/
def compute_layout (root_node : MindMapNode) : MindMapLayout :=
  let root' := placed_root root_node
  let nodes := collect_nodes root'
  let edges := collect_edges root'
  let nb := normalize_bounds nodes
  MindMapLayout.mk nb.1 nb.2.1 nb.2.2 edges

/-- A rectangle primitive `(x, y, width, height)`. -/
structure RectPrim where
  x : ℚ
  y : ℚ
  w : ℚ
  h : ℚ
deriving DecidableEq, Inhabited

/-- A straight connector primitive. -/
structure LinePrim where
  x1 : ℚ
  y1 : ℚ
  x2 : ℚ
  y2 : ℚ
deriving DecidableEq, Inhabited

/-- A text-run primitive. -/
structure TextPrim where
  x : ℚ
  y : ℚ
  text : String
deriving DecidableEq, Inhabited

/-- `html.escape(·, quote=False)`. -/
def html_escape (s : String) : String :=
  String.mk (s.toList.flatMap (fun c =>
    if c = '&' then "&amp;".toList
    else if c = '<' then "&lt;".toList
    else if c = '>' then "&gt;".toList
    else [c]))

/-- The `by_id` dictionary lookup of the renderers.  Identifiers are unique
in every layout the pipeline produces, so `find?` models the dictionary. -/
def by_id_find (nodes : List PositionedNode) (i : Nat) : PositionedNode :=
  match nodes.find? (fun n => n.node_id = i) with
  | some n => n
  | none => default

/-- Edge connectors of `render_mind_map_svg`: straight lines between the
parent and child centres. -/
def svg_edge_lines (layout : MindMapLayout) : List LinePrim :=
  layout.edges.map (fun e =>
    let p := by_id_find layout.nodes e.1
    let c := by_id_find layout.nodes e.2
    ⟨p.x, p.y, c.x, c.y⟩)

/-- Node rectangles of `render_mind_map_svg`: top-left corner at
`(x - width/2, y - height/2)`. -/
def svg_node_rects (layout : MindMapLayout) : List RectPrim :=
  layout.nodes.map (fun n => ⟨n.x - n.width / 2, n.y - n.height / 2, n.width, n.height⟩)

/-- Text runs of `render_mind_map_svg`: line `idx` sits at
`base + idx * LINE_HEIGHT` with the block centred on the node, escaped for
the output format. -/
def svg_node_texts (layout : MindMapLayout) : List TextPrim :=
  layout.nodes.flatMap (fun n =>
    let base := n.y - ((n.lines.length : ℚ) - 1) * (LINE_HEIGHT / 2)
    n.lines.enum.map (fun il => ⟨n.x, base + (il.1 : ℚ) * LINE_HEIGHT, html_escape il.2⟩))

/-- The geometric content of the vector-graphic document emitted by
`render_mind_map_svg` (the textual serialisation is presentation only). -/
structure SvgDoc where
  width : ℚ
  height : ℚ
  edges : List LinePrim
  rects : List RectPrim
  texts : List TextPrim
deriving DecidableEq, Inhabited

/-- `render_mind_map_svg` of the source. -/
def render_mind_map_svg (lines : List String) : Option SvgDoc :=
  match parse_mind_map_markdown lines with
  | none => none
  | some root =>
    let layout := compute_layout root
    some ⟨layout.width, layout.height, svg_edge_lines layout, svg_node_rects layout,
      svg_node_texts layout⟩

/-- The in-memory drawing structure built by `render_mind_map_drawing`:
extents, primitives, and the uniform transform scale applied at the end
(`drawing.scale(s, s)`, initially the identity). -/
structure Drawing where
  width : ℚ
  height : ℚ
  lines : List LinePrim
  rects : List RectPrim
  texts : List TextPrim
  scale : ℚ
deriving DecidableEq, Inhabited

/-- Edge connectors of the page drawing: same centres with
`y ↦ layout height - y`. -/
def drawing_edge_lines (layout : MindMapLayout) : List LinePrim :=
  layout.edges.map (fun e =>
    let p := by_id_find layout.nodes e.1
    let c := by_id_find layout.nodes e.2
    ⟨p.x, layout.height - p.y, c.x, layout.height - c.y⟩)

/-- Node rectangles of the page drawing: bottom-left corner at
`(x - width/2, layout height - (y + height/2))`. -/
def drawing_node_rects (layout : MindMapLayout) : List RectPrim :=
  layout.nodes.map (fun n =>
    ⟨n.x - n.width / 2, layout.height - (n.y + n.height / 2), n.width, n.height⟩)

/-- Text runs of the page drawing: `y_pdf = layout height - y_svg - 4`. -/
def drawing_node_texts (layout : MindMapLayout) : List TextPrim :=
  layout.nodes.flatMap (fun n =>
    let base := n.y - ((n.lines.length : ℚ) - 1) * (LINE_HEIGHT / 2)
    n.lines.enum.map (fun il =>
      ⟨n.x, layout.height - (base + (il.1 : ℚ) * LINE_HEIGHT) - 4, il.2⟩))

/-- Python truthiness of an optional float argument (`if max_width:`). -/
def truthy (x : Option ℚ) : Bool :=
  match x with
  | none => false
  | some v => v ≠ 0

/-- The downscale tail of `render_mind_map_drawing`: when a truthy bound is
supplied, take the smallest of 1 and the supplied ratios, and apply it when
it is strictly below 1. -/
def apply_scale (d : Drawing) (max_width max_height : Option ℚ) : Drawing :=
  if truthy max_width ∨ truthy max_height then
    let factors := [(1 : ℚ)] ++
      (if truthy max_width then [(max_width.getD 0) / d.width] else []) ++
      (if truthy max_height then [(max_height.getD 0) / d.height] else [])
    let scale := list_min factors
    if scale < 1 then
      { d with width := d.width * scale, height := d.height * scale, scale := scale }
    else d
  else d

/-- `render_mind_map_drawing` of the source, including the optional uniform
downscale. -/
def render_mind_map_drawing (lines : List String)
    (max_width max_height : Option ℚ) : Option Drawing :=
  match parse_mind_map_markdown lines with
  | none => none
  | some root =>
    let layout := compute_layout root
    let d : Drawing := ⟨layout.width, layout.height, drawing_edge_lines layout,
      drawing_node_rects layout, drawing_node_texts layout, 1⟩
    some (apply_scale d max_width max_height)

/-- The node identifiers of a subtree in collection (pre-) order. -/
def node_ids (t : RNode) : List Nat :=
  (collect_nodes t).map (fun n => n.node_id)

/-- The node identifiers of a forest in collection order. -/
def node_ids_list (ts : List RNode) : List Nat :=
  (collect_list ts).map (fun n => n.node_id)

/-- Two node boxes do not overlap: the x-extents (`x ± width/2`) or the
y-extents (`y ± height/2`) are disjoint (strictly separated). -/
def boxes_disjoint (a b : PositionedNode) : Prop :=
  a.x + a.width / 2 < b.x - b.width / 2 ∨ b.x + b.width / 2 < a.x - a.width / 2 ∨
  a.y + a.height / 2 < b.y - b.height / 2 ∨ b.y + b.height / 2 < a.y - a.height / 2

mutual
/-- Every node of the decorated subtree has its box sizes in the ranges
produced by `_decorate_tree`: height in `[40, 110]`, width in `[135, 360]`. -/
def OK_tree : RNode → Prop
  | .mk d cs => (40 ≤ d.height ∧ d.height ≤ 110 ∧ 135 ≤ d.width ∧ d.width ≤ 360) ∧
      OK_forest cs

def OK_forest : List RNode → Prop
  | [] => True
  | c :: rest => OK_tree c ∧ OK_forest rest
end

/-- A collected node's box sizes are in the decoration ranges. -/
def size_ok (p : PositionedNode) : Prop :=
  40 ≤ p.height ∧ p.height ≤ 110 ∧ 135 ≤ p.width ∧ p.width ≤ 360

/-- A collected node sits in the horizontal column of some depth `k ≥ dep`
on the given side. -/
def col_ok (side : ℚ) (dep : Nat) (p : PositionedNode) : Prop :=
  ∃ k : Nat, dep ≤ k ∧ p.x = side * (k : ℚ) * H_STEP

/-- A collected node's vertical box lies within `[lo - 2, hi + 2]`. -/
def band_ok (lo hi : ℚ) (p : PositionedNode) : Prop :=
  lo - 2 ≤ p.y - p.height / 2 ∧ p.y + p.height / 2 ≤ hi + 2

/-- The placement invariant of `_place_subtree` for one subtree centred at
`cy`: every collected node is in a column of depth at least `dep`, has
decoration-range sizes, and lies in the subtree's vertical band with slack
2; the placed root's centre deviates from `cy` by at most
`max 0 (subtree_height/2 - 53)`; and the collected boxes are pairwise
disjoint. -/
def place_tree_spec (t : RNode) (side : ℚ) (dep : Nat) (cy : ℚ) : Prop :=
  (∀ p ∈ collect_nodes (place_subtree t side dep cy),
    col_ok side dep p ∧ size_ok p ∧
      band_ok (cy - subtree_height t / 2) (cy + subtree_height t / 2) p) ∧
  |root_y (place_subtree t side dep cy) - cy| ≤ max 0 (subtree_height t / 2 - 53) ∧
  List.Pairwise boxes_disjoint (collect_nodes (place_subtree t side dep cy))

/-- The placement invariant of the stacking loop shared by `_place_subtree`
and `place_side`, for a run starting at `start`. -/
def place_run_spec (cs : List RNode) (gap side : ℚ) (dep : Nat) (start : ℚ) : Prop :=
  (∀ p ∈ collect_list (place_run gap side dep cs start),
    col_ok side dep p ∧ size_ok p ∧ band_ok start (start + run_total gap cs) p) ∧
  (∀ y ∈ (place_run gap side dep cs start).map root_y,
    start + 20 ≤ y ∧ y ≤ start + run_total gap cs - 20) ∧
  (∀ c rest, cs = c :: rest →
    ∃ v, ((place_run gap side dep cs start).map root_y).head? = some v ∧
      |v - (start + subtree_height c / 2)| ≤ max 0 (subtree_height c / 2 - 53)) ∧
  (cs ≠ [] →
    ∃ v cl, ((place_run gap side dep cs start).map root_y).getLast? = some v ∧ cl ∈ cs ∧
      |v - (start + run_total gap cs - subtree_height cl / 2)| ≤
        max 0 (subtree_height cl / 2 - 53)) ∧
  (place_run gap side dep cs start).length = cs.length ∧
  List.Pairwise boxes_disjoint (collect_list (place_run gap side dep cs start))

/-! ### Induction principles for the nested tree types -/

theorem MindMapNode.mindmap_mem_ind {motive : MindMapNode → Prop}
    (h : ∀ t cs, (∀ c ∈ cs, motive c) → motive (.mk t cs)) : ∀ n, motive n
  | .mk t cs => h t cs (fun c hc => MindMapNode.mindmap_mem_ind h c)
termination_by n => sizeOf n
decreasing_by
  have := List.sizeOf_lt_of_mem hc
  simp only [MindMapNode.mk.sizeOf_spec]
  omega

theorem RNode.rnode_mem_ind {motive : RNode → Prop}
    (h : ∀ d cs, (∀ c ∈ cs, motive c) → motive (.mk d cs)) : ∀ n, motive n
  | .mk d cs => h d cs (fun c hc => RNode.rnode_mem_ind h c)
termination_by n => sizeOf n
decreasing_by
  have := List.sizeOf_lt_of_mem hc
  simp only [RNode.mk.sizeOf_spec]
  omega

/-! ### Chunking and wrapping lemmas -/

theorem chunks_go_join (k : Nat) (hk : 1 ≤ k) :
    ∀ fuel l, l.length ≤ fuel → (chunks_go fuel k l).flatten = l := by
  intro fuel
  induction fuel with
  | zero =>
    intro l hl
    rw [List.length_eq_zero.1 (Nat.le_zero.1 hl)]
    rfl
  | succ fuel ih =>
    intro l hl
    cases l with
    | nil => rfl
    | cons c t =>
      have hfuel : (t.drop (k - 1)).length ≤ fuel := by
        simp only [List.length_drop]
        simp only [List.length_cons] at hl
        omega
      rw [chunks_go]
      simp only [List.flatten_cons]
      rw [ih _ hfuel]
      have : t.drop (k - 1) = (c :: t).drop k := by
        cases k with
        | zero => omega
        | succ m => simp
      rw [this, List.take_append_drop]

theorem chunks_of_join (k : Nat) (hk : 1 ≤ k) (l : List Char) :
    (chunks_of k l).flatten = l :=
  chunks_go_join k hk l.length l le_rfl

theorem chunks_go_length_le (k : Nat) :
    ∀ fuel l, ∀ x ∈ chunks_go fuel k l, x.length ≤ k := by
  intro fuel
  induction fuel with
  | zero => intro l x hx; simp [chunks_go] at hx
  | succ fuel ih =>
    intro l x hx
    cases l with
    | nil => simp [chunks_go] at hx
    | cons c t =>
      rw [chunks_go] at hx
      rcases List.mem_cons.1 hx with h | h
      · subst h; simpa using List.length_take_le k (c :: t)
      · exact ih _ x h

theorem chunks_of_length_le (k : Nat) (l : List Char) :
    ∀ x ∈ chunks_of k l, x.length ≤ k :=
  chunks_go_length_le k l.length l

theorem chunks_of_ne_nil (k : Nat) (l : List Char) (hl : l ≠ []) :
    chunks_of k l ≠ [] := by
  cases l with
  | nil => simp at hl
  | cons c t => rw [chunks_of, List.length_cons, chunks_go]; simp

theorem chunks_go_full (k : Nat) (hk : 1 ≤ k) :
    ∀ fuel l, l.length ≤ fuel → ∀ i, i + 1 < (chunks_go fuel k l).length →
      ((chunks_go fuel k l).getD i []).length = k := by
  intro fuel
  induction fuel with
  | zero => intro l hl i hi; simp [chunks_go] at hi
  | succ fuel ih =>
    intro l hl i hi
    cases l with
    | nil => simp [chunks_go] at hi
    | cons c t =>
      rw [chunks_go] at hi ⊢
      have hlt : t.length ≤ fuel := by
        simp only [List.length_cons] at hl; omega
      cases i with
      | zero =>
        simp only [List.getD_cons_zero]
        simp only [List.length_cons] at hi
        have hne : chunks_go fuel k (t.drop (k - 1)) ≠ [] := by
          intro hemp; rw [hemp] at hi; simp at hi
        have hdne : t.drop (k - 1) ≠ [] := by
          intro hemp
          rw [hemp] at hne
          cases fuel with
          | zero => exact hne rfl
          | succ m => exact hne rfl
        have : k ≤ (c :: t).length := by
          simp only [List.length_cons]
          by_contra hcon
          push_neg at hcon
          have : t.length ≤ k - 1 := by omega
          rw [List.drop_eq_nil_iff.2 (by omega)] at hdne
          exact hdne rfl
        simpa using this
      | succ j =>
        simp only [List.getD_cons_succ]
        refine ih _ (by simp only [List.length_drop]; omega) j ?_
        simp only [List.length_cons] at hi
        omega

theorem chunks_of_full (k : Nat) (hk : 1 ≤ k) (l : List Char) :
    ∀ i, i + 1 < (chunks_of k l).length →
      ((chunks_of k l).getD i []).length = k :=
  chunks_go_full k hk l.length l le_rfl

theorem split_word_not_nil : ∀ t acc, split_word acc t ≠ [] := by
  intro t
  induction t with
  | nil => intro acc; rw [split_word]; simp
  | cons c t ih =>
    intro acc
    rw [split_word]
    split
    · simp
    · exact ih (c :: acc)

theorem split_ws_word_mem_ne : ∀ l : List Char,
    (∀ w ∈ split_ws l, w ≠ []) ∧
    (∀ acc, acc ≠ [] → ∀ w ∈ split_word acc l, w ≠ []) := by
  intro l
  induction l with
  | nil =>
    refine ⟨by simp [split_ws], ?_⟩
    intro acc hacc w hw
    rw [split_word] at hw
    rcases List.mem_singleton.1 hw with rfl
    simpa using hacc
  | cons c t ih =>
    constructor
    · intro w hw
      rw [split_ws] at hw
      split at hw
      · exact ih.1 w hw
      · exact ih.2 [c] (by simp) w hw
    · intro acc hacc w hw
      rw [split_word] at hw
      split at hw
      · rcases List.mem_cons.1 hw with h | h
        · subst h; simpa using hacc
        · exact ih.1 w h
      · exact ih.2 (c :: acc) (by simp) w hw

theorem split_ws_ne_nil (l : List Char) : ∀ w ∈ split_ws l, w ≠ [] :=
  (split_ws_word_mem_ne l).1

theorem wrap_loop_length_mono (k : Nat) :
    ∀ ws lines cur, lines.length ≤ (wrap_loop k ws lines cur).length := by
  intro ws
  induction ws with
  | nil =>
    intro lines cur
    rw [wrap_loop]
    split <;> simp
  | cons w ws ih =>
    intro lines cur
    rw [wrap_loop]
    split
    · exact le_trans (by split <;> simp) (ih _ _)
    · split
      · exact ih _ _
      · split
        · exact ih _ _
        · exact le_trans (by simp) (ih _ _)

theorem wrap_loop_length_cur (k : Nat) :
    ∀ ws lines cur, cur ≠ [] → lines.length + 1 ≤ (wrap_loop k ws lines cur).length := by
  intro ws
  induction ws with
  | nil =>
    intro lines cur hc
    rw [wrap_loop, if_neg hc]
    simp
  | cons w ws ih =>
    intro lines cur hc
    rw [wrap_loop]
    simp only [if_neg hc]
    split
    · exact le_trans (by simp) (wrap_loop_length_mono k ws _ [])
    · split
      · exact ih _ _ (by simp)
      · exact le_trans (by simp) (wrap_loop_length_mono k ws _ w)


theorem wrap_loop_le (k : Nat) :
    ∀ ws lines cur, (∀ l ∈ lines, l.length ≤ k) → cur.length ≤ k →
      ∀ l ∈ wrap_loop k ws lines cur, l.length ≤ k := by
  intro ws
  induction ws with
  | nil =>
    intro lines cur hl hc
    rw [wrap_loop]
    split
    · exact hl
    · intro l hmem
      rcases List.mem_append.1 hmem with h | h
      · exact hl l h
      · rcases List.mem_singleton.1 h with rfl; exact hc
  | cons w ws ih =>
    intro lines cur hl hc
    rw [wrap_loop]
    split
    · refine ih _ [] ?_ (by simp)
      intro l hmem
      rcases List.mem_append.1 hmem with h | h
      · split at h
        · exact hl l h
        · rcases List.mem_append.1 h with h2 | h2
          · exact hl l h2
          · rcases List.mem_singleton.1 h2 with rfl; exact hc
      · exact chunks_of_length_le k w l h
    · rename_i hlong
      split
      · exact ih _ w hl (by omega)
      · split
        · rename_i hcand
          exact ih _ _ hl hcand
        · refine ih _ w ?_ (by omega)
          intro l hmem
          rcases List.mem_append.1 hmem with h | h
          · exact hl l h
          · rcases List.mem_singleton.1 h with rfl; exact hc

theorem py_strip_head : ∀ l : List Char,
    py_strip l = [] ∨ ∃ c t, py_strip l = c :: t ∧ py_ws c = false := by
  intro l
  induction l with
  | nil => left; rfl
  | cons c t ih =>
    by_cases hc : py_ws c
    · have : py_strip (c :: t) = py_strip t := by
        simp only [py_strip, List.dropWhile_cons, hc]
        simp
      rw [this]; exact ih
    · right
      have hdrop : (c :: t).dropWhile py_ws = c :: t := by
        simp only [List.dropWhile_cons]
        simp [hc]
      simp only [py_strip, hdrop]
      have hrev : (c :: t).reverse = t.reverse ++ [c] := by simp
      rw [hrev, List.dropWhile_append]
      split
      · refine ⟨c, [], ?_, by simp [hc]⟩
        simp [List.dropWhile_cons, hc]
      · exact ⟨c, (t.reverse.dropWhile py_ws).reverse, by simp, by simp [hc]⟩

theorem wrap_text_len_le (text : String) (k : Nat) :
    ∀ s ∈ wrap_text text k, s.length ≤ k := by
  intro s hs
  rw [wrap_text] at hs
  split at hs
  · rcases List.mem_singleton.1 hs with rfl; simp
  · split at hs
    · rcases List.mem_map.1 hs with ⟨l, hl, rfl⟩
      simpa using chunks_of_length_le k (py_strip text.toList) l
        ((List.take_sublist 6 _).subset hl)
    · rcases List.mem_map.1 hs with ⟨l, hl, rfl⟩
      simpa using wrap_loop_le k (split_ws (py_strip text.toList)) [] [] (by simp) (by simp) l
        ((List.take_sublist 6 _).subset hl)

theorem wrap_text_card (text : String) (k : Nat) :
    1 ≤ (wrap_text text k).length ∧ (wrap_text text k).length ≤ 6 := by
  rw [wrap_text]
  split
  · simp
  · rename_i hne
    split
    · rename_i hcase
      constructor
      · have h1 : chunks_of k (py_strip text.toList) ≠ [] :=
          chunks_of_ne_nil k _ hne
        simp only [List.length_map, List.length_take]
        rcases hx : chunks_of k (py_strip text.toList) with _ | ⟨a, r⟩
        · exact absurd hx h1
        · simp
      · simp only [List.length_map, List.length_take]
        omega
    · constructor
      · have hsw : split_ws (py_strip text.toList) ≠ [] := by
          rcases hps : py_strip text.toList with _ | ⟨c, t⟩
          · exact absurd hps hne
          · have hc : py_ws c = false := by
              rcases py_strip_head text.toList with h | ⟨c', t', heq, hws⟩
              · rw [hps] at h; cases h
              · rw [hps] at heq; cases heq; exact hws
            rw [split_ws, if_neg (by simp [hc])]
            exact split_word_not_nil t [c]
        rcases hx : split_ws (py_strip text.toList) with _ | ⟨w, ws⟩
        · exact absurd hx hsw
        · have hw : w ≠ [] := split_ws_ne_nil (py_strip text.toList) w (by rw [hx]; simp)
          simp only [List.length_map, List.length_take]
          have hlen : 1 ≤ (wrap_loop k (w :: ws) [] []).length := by
            rw [wrap_loop]
            split
            · refine le_trans ?_ (wrap_loop_length_mono k _ _ [])
              simp only [if_pos rfl, List.nil_append]
              rcases hck : chunks_of k w with _ | ⟨a, r⟩
              · exact absurd hck (chunks_of_ne_nil k _ hw)
              · simp
            · simp only [if_pos rfl]
              simpa using wrap_loop_length_cur k ws [] _ hw
          omega
      · simp only [List.length_map, List.length_take]
        omega

/-- C7: for every title string and maximum line width (at least 1, as the
decorator's `max(14, 24 - depth)` always is), text with no spaces that
exceeds the width is split into consecutive fixed-size chunks of exactly
that width (except the last); in all cases every returned line has length
at most the width, the result is capped at 6 lines with excess silently
dropped, and at least one line is returned. -/
theorem c7_wrap_text_policy (text : String) (max_chars : Nat) (hk : 1 ≤ max_chars) :
    1 ≤ (wrap_text text max_chars).length ∧
    (wrap_text text max_chars).length ≤ 6 ∧
    (∀ s ∈ wrap_text text max_chars, s.length ≤ max_chars) ∧
    ((' ' ∉ py_strip text.toList ∧ max_chars < (py_strip text.toList).length) →
      wrap_text text max_chars =
        ((chunks_of max_chars (py_strip text.toList)).take 6).map String.mk ∧
      (chunks_of max_chars (py_strip text.toList)).flatten = py_strip text.toList ∧
      (∀ i < (chunks_of max_chars (py_strip text.toList)).length - 1,
        ((chunks_of max_chars (py_strip text.toList)).getD i []).length = max_chars)) := by
  refine ⟨(wrap_text_card text max_chars).1, (wrap_text_card text max_chars).2,
    wrap_text_len_le text max_chars, ?_⟩
  intro hcond
  have hne : py_strip text.toList ≠ [] := by
    intro h
    rw [h] at hcond
    simp at hcond
  refine ⟨?_, chunks_of_join max_chars hk _, ?_⟩
  · rw [wrap_text, if_neg hne, if_pos hcond]
  · intro i hi
    exact chunks_of_full max_chars hk _ i (by omega)

/-- Witness for C7 at a concrete no-space over-long title. -/
theorem c7_wrap_text_policy_witness :
    1 ≤ 22 ∧ wrap_text "abcdefghijklmnopqrstuvwxyzabcdefghijklmnopqrstuvwxyz" 22 =
      ((chunks_of 22
        (py_strip "abcdefghijklmnopqrstuvwxyzabcdefghijklmnopqrstuvwxyz".toList)).take 6).map
        String.mk :=
  ⟨by decide,
    ((c7_wrap_text_policy "abcdefghijklmnopqrstuvwxyzabcdefghijklmnopqrstuvwxyz" 22
      (by decide)).2.2.2 (by decide)).1⟩

/-! ### Parser result policy -/

/-- C3: the parser's result policy.  Zero recognized bullets give the
no-structure result; when the synthetic pseudo-root ends with exactly one
top-level child that child is returned with no wrapper; otherwise a
synthesized root is returned, titled by the recorded first heading (the
`or`-fallback `"Mind Map"` when none was recorded) with the top-level
children under it. -/
theorem c3_parser_result_policy (lines : List String) :
    ((scan_lines lines none []).2 = [] → parse_mind_map_markdown lines = none) ∧
    (∀ bullets, (scan_lines lines none []).2 = bullets → bullets ≠ [] →
      ∀ tops, build_children (bullets.map (fun b =>
          ((b.1 - list_min_nat (bullets.map (fun b => b.1))) / 2, b.2))) = tops →
        (∀ c, tops = [c] → parse_mind_map_markdown lines = some c) ∧
        (tops.length ≠ 1 →
          parse_mind_map_markdown lines =
            some (MindMapNode.mk (final_title (scan_lines lines none []).1) tops))) := by
  rcases hsc : scan_lines lines none [] with ⟨ht, bullets⟩
  constructor
  · intro hb
    simp only at hb
    subst hb
    rw [parse_mind_map_markdown, hsc]
    simp
  · intro bs hbs hne tops htops
    simp only at hbs
    subst hbs
    constructor
    · intro c hc
      rw [parse_mind_map_markdown, hsc]
      simp only [if_neg hne]
      rw [htops, hc]
    · intro hlen
      rw [parse_mind_map_markdown, hsc]
      simp only [if_neg hne]
      rw [htops]
      rcases tops with _ | ⟨c, _ | ⟨c2, rest⟩⟩
      · rfl
      · simp at hlen
      · rfl

/-- Witness for C3: the spec's single-top-level-child example collapses,
and a two-bullet document gets the synthesized fallback-titled root. -/
theorem c3_parser_result_policy_witness :
    parse_mind_map_markdown ["- A", "  - B", "  - C"] =
      some (MindMapNode.mk "A" [MindMapNode.mk "B" [], MindMapNode.mk "C" []]) ∧
    parse_mind_map_markdown ["- A", "- B"] =
      some (MindMapNode.mk "Mind Map" [MindMapNode.mk "A" [], MindMapNode.mk "B" []]) :=
  ⟨((c3_parser_result_policy ["- A", "  - B", "  - C"]).2 _ rfl (by decide) _ rfl).1 _ rfl,
   ((c3_parser_result_policy ["- A", "- B"]).2 _ rfl (by decide) _ rfl).2 (by decide)⟩

/-- C4: absence of structure is data, never an exception.  The parser
returns the no-structure result exactly when the input has zero recognized
bullets, both renderers propagate exactly that case as their own
no-structure result, and every parsed input yields a well-defined output
from both renderers. -/
theorem c4_no_structure_is_data (lines : List String) (mw mh : Option ℚ) :
    (parse_mind_map_markdown lines = none ↔ (scan_lines lines none []).2 = []) ∧
    (render_mind_map_svg lines = none ↔ (scan_lines lines none []).2 = []) ∧
    (render_mind_map_drawing lines mw mh = none ↔ (scan_lines lines none []).2 = []) ∧
    (∀ root, parse_mind_map_markdown lines = some root →
      render_mind_map_svg lines =
        some ⟨(compute_layout root).width, (compute_layout root).height,
          svg_edge_lines (compute_layout root), svg_node_rects (compute_layout root),
          svg_node_texts (compute_layout root)⟩ ∧
      ∃ d, render_mind_map_drawing lines mw mh = some d) := by
  rcases hsc : scan_lines lines none [] with ⟨ht, bullets⟩
  simp only
  have hparse : ∀ r, parse_mind_map_markdown lines = some r → bullets ≠ [] := by
    intro r hr hb
    subst hb
    rw [parse_mind_map_markdown, hsc] at hr
    simp at hr
  have hsome : bullets ≠ [] → ∃ r, parse_mind_map_markdown lines = some r := by
    intro hne
    rw [parse_mind_map_markdown, hsc]
    simp only [if_neg hne]
    split
    · exact ⟨_, rfl⟩
    · exact ⟨_, rfl⟩
  have hiff : parse_mind_map_markdown lines = none ↔ bullets = [] := by
    constructor
    · intro h
      by_contra hne
      rcases hsome hne with ⟨r, hr⟩
      rw [h] at hr
      cases hr
    · intro h
      subst h
      rw [parse_mind_map_markdown, hsc]
      simp
  refine ⟨hiff, ?_, ?_, ?_⟩
  · rw [render_mind_map_svg]
    rcases hp : parse_mind_map_markdown lines with _ | r
    · simpa [hp] using hiff.1 hp
    · simp only
      constructor
      · intro h; cases h
      · intro h
        exact absurd h (hparse r hp)
  · rw [render_mind_map_drawing]
    rcases hp : parse_mind_map_markdown lines with _ | r
    · simpa [hp] using hiff.1 hp
    · simp only
      constructor
      · intro h
        cases h
      · intro h
        exact absurd h (hparse r hp)
  · intro root hroot
    constructor
    · rw [render_mind_map_svg, hroot]
    · rw [render_mind_map_drawing, hroot]
      exact ⟨_, rfl⟩

/-- Witness for C4: the spec's `"just a paragraph"` input yields the
no-structure result along the whole pipeline, and a parseable input
renders under both backends. -/
theorem c4_no_structure_is_data_witness :
    parse_mind_map_markdown ["just a paragraph"] = none ∧
    render_mind_map_svg ["just a paragraph"] = none ∧
    render_mind_map_drawing ["just a paragraph"] (some 200) none = none ∧
    (∃ d, render_mind_map_drawing ["- A", "- B"] (some 200) none = some d) := by
  refine ⟨(c4_no_structure_is_data ["just a paragraph"] (some 200) none).1.2 (by decide),
    (c4_no_structure_is_data ["just a paragraph"] (some 200) none).2.1.2 (by decide),
    (c4_no_structure_is_data ["just a paragraph"] (some 200) none).2.2.1.2 (by decide),
    ((c4_no_structure_is_data ["- A", "- B"] (some 200) none).2.2.2 _ rfl).2⟩

/-! ### Side splitting -/

theorem split_go_acc : ∀ (cs l r : List RNode) (lh rh : ℚ),
    ∃ l2 r2, split_go cs l r lh rh = (l ++ l2, r ++ r2) := by
  intro cs
  induction cs with
  | nil => intro l r lh rh; exact ⟨[], [], by simp [split_go]⟩
  | cons c t ih =>
    intro l r lh rh
    rw [split_go]
    split
    · rcases ih (l ++ [c]) r (lh + subtree_height c) rh with ⟨l2, r2, heq⟩
      exact ⟨[c] ++ l2, r2, by simpa using heq⟩
    · rcases ih l (r ++ [c]) lh (rh + subtree_height c) with ⟨l2, r2, heq⟩
      exact ⟨l2, [c] ++ r2, by simpa using heq⟩

theorem split_go_length : ∀ (cs l r : List RNode) (lh rh : ℚ),
    (split_go cs l r lh rh).1.length + (split_go cs l r lh rh).2.length =
      l.length + r.length + cs.length := by
  intro cs
  induction cs with
  | nil => intro l r lh rh; simp [split_go]
  | cons c t ih =>
    intro l r lh rh
    rw [split_go]
    split
    · rw [ih]; simp; omega
    · rw [ih]; simp; omega

/-- C6: top-level side assignment is the greedy running-total balance
(`split_go` is exactly that loop: each child joins the group with the
smaller accumulated subtree height, ties to the left), and with at least
two children — whose subtree heights are positive, as all decorated
heights are — the repair never fires and both groups are non-empty. -/
theorem c6_greedy_balance_split (cs : List RNode) (h2 : 2 ≤ cs.length)
    (hpos : ∀ c ∈ cs, 0 < subtree_height c) :
    split_top_level_children cs = split_go cs [] [] 0 0 ∧
    (split_top_level_children cs).1 ≠ [] ∧ (split_top_level_children cs).2 ≠ [] := by
  rcases cs with _ | ⟨c1, _ | ⟨c2, rest⟩⟩
  · simp at h2
  · simp at h2
  · have hstep : split_go (c1 :: c2 :: rest) [] [] 0 0 =
        split_go rest [c1] [c2] (subtree_height c1) (subtree_height c2) := by
      rw [split_go, if_pos le_rfl, split_go,
        if_neg (show ¬(0 + subtree_height c1 ≤ 0) by
          rw [zero_add]; exact not_le.2 (hpos c1 (by simp)))]
      simp
    rcases split_go_acc rest [c1] [c2] (subtree_height c1) (subtree_height c2) with
      ⟨l2, r2, heq⟩
    have hres : split_go (c1 :: c2 :: rest) [] [] 0 0 = (c1 :: l2, c2 :: r2) := by
      rw [hstep, heq]; simp
    have hsplit : split_top_level_children (c1 :: c2 :: rest) = (c1 :: l2, c2 :: r2) := by
      simp [split_top_level_children, hres]
    rw [hsplit, hres]
    exact ⟨rfl, by simp, by simp⟩

/-- Witness for C6 at two concrete decorated leaves. -/
theorem c6_greedy_balance_split_witness :
    2 ≤ ([RNode.mk ⟨0, "a", 1, ["a"], 135, 40, 0, 0⟩ [],
          RNode.mk ⟨1, "b", 1, ["b"], 135, 46, 0, 0⟩ []] : List RNode).length ∧
    (∀ c ∈ ([RNode.mk ⟨0, "a", 1, ["a"], 135, 40, 0, 0⟩ [],
             RNode.mk ⟨1, "b", 1, ["b"], 135, 46, 0, 0⟩ []] : List RNode),
      0 < subtree_height c) ∧
    split_top_level_children
        [RNode.mk ⟨0, "a", 1, ["a"], 135, 40, 0, 0⟩ [],
         RNode.mk ⟨1, "b", 1, ["b"], 135, 46, 0, 0⟩ []] =
      split_go [RNode.mk ⟨0, "a", 1, ["a"], 135, 40, 0, 0⟩ [],
         RNode.mk ⟨1, "b", 1, ["b"], 135, 46, 0, 0⟩ []] [] [] 0 0 :=
  ⟨by decide, by decide,
    (c6_greedy_balance_split _ (by decide) (by decide)).1⟩

/-- Every node of a placed subtree sits in the column
`x = side * k * H_STEP` for some `k` at least the starting depth. -/
theorem place_x (side : ℚ) : ∀ (t : RNode) (d : Nat) (cy : ℚ),
    ∀ p ∈ collect_nodes (place_subtree t side d cy),
      ∃ k : Nat, d ≤ k ∧ p.x = side * (k : ℚ) * H_STEP := by
  intro t
  induction t using RNode.rnode_mem_ind with
  | h dta cs ih =>
    intro d cy p hp
    have hrun : ∀ (cs' : List RNode), (∀ c ∈ cs', ∀ (d' : Nat) (cy' : ℚ),
        ∀ q ∈ collect_nodes (place_subtree c side d' cy'),
          ∃ k : Nat, d' ≤ k ∧ q.x = side * (k : ℚ) * H_STEP) →
        ∀ (gap start : ℚ) (d' : Nat), ∀ q ∈ collect_list (place_run gap side d' cs' start),
          ∃ k : Nat, d' ≤ k ∧ q.x = side * (k : ℚ) * H_STEP := by
      intro cs'
      induction cs' with
      | nil => intro _ gap start d' q hq; simp [place_run, collect_list] at hq
      | cons c t iht =>
        intro hmem gap start d' q hq
        rw [place_run] at hq
        rw [collect_list] at hq
        rcases List.mem_append.1 hq with h | h
        · exact hmem c (by simp) d' _ q h
        · exact iht (fun c hc => hmem c (by simp [hc])) gap _ d' q h
    cases cs with
    | nil =>
      rw [place_subtree] at hp
      rw [collect_nodes] at hp
      rcases List.mem_cons.1 hp with h | h
      · subst h; exact ⟨d, le_rfl, rfl⟩
      · simp [collect_list] at h
    | cons c rest =>
      rw [place_subtree] at hp
      rw [collect_nodes] at hp
      rcases List.mem_cons.1 hp with h | h
      · subst h; exact ⟨d, le_rfl, rfl⟩
      · rcases hrun (c :: rest) (fun c' hc' => ih c' hc') V_GAP _ (d + 1) p h with
          ⟨k, hk, hx⟩
        exact ⟨k, by omega, hx⟩

/-- The run-level form of `place_x`, for a whole stacked side. -/
theorem place_run_x (gap side : ℚ) (d : Nat) (cs : List RNode) (start : ℚ) :
    ∀ q ∈ collect_list (place_run gap side d cs start),
      ∃ k : Nat, d ≤ k ∧ q.x = side * (k : ℚ) * H_STEP := by
  induction cs generalizing start with
  | nil => intro q hq; simp [place_run, collect_list] at hq
  | cons c t ih =>
    intro q hq
    rw [place_run] at hq
    rw [collect_list] at hq
    rcases List.mem_append.1 hq with h | h
    · exact place_x side c d _ q h
    · exact ih _ q h

/-- C10 (implicit): when the decorated root has exactly one direct child,
the repair assigns that sole child to the right group, the left group is
empty, and before normalization every node of its placed subtree has a
strictly positive `x`. -/
theorem c10_sole_child_right (rn : MindMapNode)
    (h1 : (decorate_tree rn).children.length = 1) :
    split_top_level_children (decorate_tree rn).children =
      ([], (decorate_tree rn).children) ∧
    ∀ p ∈ (collect_nodes (placed_root rn)).tail, 0 < p.x := by
  rcases hcs : (decorate_tree rn).children with _ | ⟨c, _ | _⟩
  · rw [hcs] at h1; simp at h1
  · constructor
    · rw [split_top_level_children]
      rw [split_go, if_pos le_rfl, split_go]
      simp
    · intro p hp
      rw [placed_root] at hp
      simp only [hcs] at hp
      have hsplit : split_top_level_children [c] = ([], [c]) := by
        rw [split_top_level_children, split_go, if_pos le_rfl, split_go]
        simp
      have hflags : side_flags [c] = [false] := by
        rw [side_flags, side_flags_go, if_pos le_rfl, side_flags_go]
        simp
      rw [hsplit, hflags] at hp
      simp only [place_side_list, place_run] at hp
      rw [collect_nodes] at hp
      simp only [List.tail_cons] at hp
      have hmerge : ∀ x : RNode, merge_sides [false] [] [x] = [x] := fun _ => rfl
      rw [hmerge] at hp
      rw [collect_list] at hp
      rcases List.mem_append.1 hp with h | h
      · rcases place_x 1 c 1 _ p h with ⟨k, hk, hx⟩
        rw [hx, H_STEP]
        have : (0 : ℚ) < (k : ℚ) := by
          have : (1 : ℚ) ≤ (k : ℚ) := by exact_mod_cast hk
          linarith
        nlinarith
      · simp [collect_list] at h
  · rw [hcs] at h1; simp at h1

/-- Witness for C10 at a single-top-level-bullet document. -/
theorem c10_sole_child_right_witness :
    (decorate_tree (MindMapNode.mk "A" [MindMapNode.mk "B" []])).children.length = 1 ∧
    split_top_level_children
        (decorate_tree (MindMapNode.mk "A" [MindMapNode.mk "B" []])).children =
      ([], (decorate_tree (MindMapNode.mk "A" [MindMapNode.mk "B" []])).children) :=
  ⟨rfl, (c10_sole_child_right (MindMapNode.mk "A" [MindMapNode.mk "B" []]) rfl).1⟩

/-! ### Bounds normalization -/

theorem foldl_min_le_init : ∀ (t : List ℚ) (x : ℚ), t.foldl min x ≤ x := by
  intro t
  induction t with
  | nil => intro x; simp
  | cons a t ih =>
    intro x
    calc t.foldl min (min x a) ≤ min x a := ih _
      _ ≤ x := min_le_left _ _

theorem foldl_min_le_mem : ∀ (t : List ℚ) (x a : ℚ), a ∈ t → t.foldl min x ≤ a := by
  intro t
  induction t with
  | nil => intro x a ha; simp at ha
  | cons b t ih =>
    intro x a ha
    rcases List.mem_cons.1 ha with h | h
    · subst h
      calc t.foldl min (min x a) ≤ min x a := foldl_min_le_init _ _
        _ ≤ a := min_le_right _ _
    · exact ih _ a h

theorem list_min_le_mem (l : List ℚ) (a : ℚ) (ha : a ∈ l) : list_min l ≤ a := by
  cases l with
  | nil => simp at ha
  | cons x t =>
    rw [list_min]
    rcases List.mem_cons.1 ha with h | h
    · subst h; exact foldl_min_le_init _ _
    · exact foldl_min_le_mem _ _ _ h

theorem foldl_max_ge_init : ∀ (t : List ℚ) (x : ℚ), x ≤ t.foldl max x := by
  intro t
  induction t with
  | nil => intro x; simp
  | cons a t ih =>
    intro x
    calc x ≤ max x a := le_max_left _ _
      _ ≤ t.foldl max (max x a) := ih _

theorem foldl_max_ge_mem : ∀ (t : List ℚ) (x a : ℚ), a ∈ t → a ≤ t.foldl max x := by
  intro t
  induction t with
  | nil => intro x a ha; simp at ha
  | cons b t ih =>
    intro x a ha
    rcases List.mem_cons.1 ha with h | h
    · subst h
      calc a ≤ max x a := le_max_right _ _
        _ ≤ t.foldl max (max x a) := foldl_max_ge_init _ _
    · exact ih _ a h

theorem list_max_ge_mem (l : List ℚ) (a : ℚ) (ha : a ∈ l) : a ≤ list_max l := by
  cases l with
  | nil => simp at ha
  | cons x t =>
    rw [list_max]
    rcases List.mem_cons.1 ha with h | h
    · subst h; exact foldl_max_ge_init _ _
    · exact foldl_max_ge_mem _ _ _ h

theorem foldl_min_add : ∀ (t : List ℚ) (x s : ℚ),
    (t.map (fun a => a + s)).foldl min (x + s) = t.foldl min x + s := by
  intro t
  induction t with
  | nil => intro x s; simp
  | cons a t ih =>
    intro x s
    simp only [List.map_cons, List.foldl_cons]
    rw [min_add_add_right]
    exact ih _ s

theorem list_min_map_add (l : List ℚ) (s : ℚ) (hne : l ≠ []) :
    list_min (l.map (fun a => a + s)) = list_min l + s := by
  cases l with
  | nil => exact absurd rfl hne
  | cons x t =>
    simp only [list_min, List.map_cons]
    exact foldl_min_add t x s

theorem foldl_max_add : ∀ (t : List ℚ) (x s : ℚ),
    (t.map (fun a => a + s)).foldl max (x + s) = t.foldl max x + s := by
  intro t
  induction t with
  | nil => intro x s; simp
  | cons a t ih =>
    intro x s
    simp only [List.map_cons, List.foldl_cons]
    rw [max_add_add_right]
    exact ih _ s

theorem list_max_map_add (l : List ℚ) (s : ℚ) (hne : l ≠ []) :
    list_max (l.map (fun a => a + s)) = list_max l + s := by
  cases l with
  | nil => exact absurd rfl hne
  | cons x t =>
    simp only [list_max, List.map_cons]
    exact foldl_max_add t x s

theorem normalize_bounds_spec (ns : List PositionedNode) (hne : ns ≠ []) :
    list_min ((normalize_bounds ns).2.2.map (fun n => n.x - n.width / 2)) = MARGIN ∧
    list_min ((normalize_bounds ns).2.2.map (fun n => n.y - n.height / 2)) = MARGIN ∧
    (normalize_bounds ns).1 =
      (list_max ((normalize_bounds ns).2.2.map (fun n => n.x + n.width / 2)) -
        list_min ((normalize_bounds ns).2.2.map (fun n => n.x - n.width / 2))) + MARGIN * 2 ∧
    (normalize_bounds ns).2.1 =
      (list_max ((normalize_bounds ns).2.2.map (fun n => n.y + n.height / 2)) -
        list_min ((normalize_bounds ns).2.2.map (fun n => n.y - n.height / 2))) + MARGIN * 2 := by
  have hmapne : ∀ f : PositionedNode → ℚ, ns.map f ≠ [] := by
    intro f h
    exact hne (List.map_eq_nil_iff.1 h)
  have hxlo : (normalize_bounds ns).2.2.map (fun n => n.x - n.width / 2) =
      (ns.map (fun n => n.x - n.width / 2)).map
        (fun a => a + (MARGIN - list_min (ns.map (fun n => n.x - n.width / 2)))) := by
    simp only [normalize_bounds, List.map_map]
    apply List.map_congr_left
    intro n _
    simp only [Function.comp]
    ring
  have hxhi : (normalize_bounds ns).2.2.map (fun n => n.x + n.width / 2) =
      (ns.map (fun n => n.x + n.width / 2)).map
        (fun a => a + (MARGIN - list_min (ns.map (fun n => n.x - n.width / 2)))) := by
    simp only [normalize_bounds, List.map_map]
    apply List.map_congr_left
    intro n _
    simp only [Function.comp]
    ring
  have hylo : (normalize_bounds ns).2.2.map (fun n => n.y - n.height / 2) =
      (ns.map (fun n => n.y - n.height / 2)).map
        (fun a => a + (MARGIN - list_min (ns.map (fun n => n.y - n.height / 2)))) := by
    simp only [normalize_bounds, List.map_map]
    apply List.map_congr_left
    intro n _
    simp only [Function.comp]
    ring
  have hyhi : (normalize_bounds ns).2.2.map (fun n => n.y + n.height / 2) =
      (ns.map (fun n => n.y + n.height / 2)).map
        (fun a => a + (MARGIN - list_min (ns.map (fun n => n.y - n.height / 2)))) := by
    simp only [normalize_bounds, List.map_map]
    apply List.map_congr_left
    intro n _
    simp only [Function.comp]
    ring
  refine ⟨?_, ?_, ?_, ?_⟩
  · rw [hxlo, list_min_map_add _ _ (hmapne _)]
    ring
  · rw [hylo, list_min_map_add _ _ (hmapne _)]
    ring
  · rw [hxlo, hxhi, list_min_map_add _ _ (hmapne _), list_max_map_add _ _ (hmapne _)]
    simp only [normalize_bounds]
    ring
  · rw [hylo, hyhi, list_min_map_add _ _ (hmapne _), list_max_map_add _ _ (hmapne _)]
    simp only [normalize_bounds]
    ring

theorem collect_nodes_ne_nil (t : RNode) : collect_nodes t ≠ [] := by
  rcases t with ⟨d, cs⟩
  rw [collect_nodes]
  simp

/-- C2: after bounds normalization, the minimum over all nodes of
`x - width/2` (resp. `y - height/2`) equals the margin constant, and the
reported canvas width (resp. height) is the nodes' bounding-box extent
plus one margin on each side. -/
theorem c2_normalize_margins (lines : List String) (root : MindMapNode)
    (h : parse_mind_map_markdown lines = some root) :
    list_min ((compute_layout root).nodes.map (fun n => n.x - n.width / 2)) = MARGIN ∧
    list_min ((compute_layout root).nodes.map (fun n => n.y - n.height / 2)) = MARGIN ∧
    (compute_layout root).width =
      (list_max ((compute_layout root).nodes.map (fun n => n.x + n.width / 2)) -
        list_min ((compute_layout root).nodes.map (fun n => n.x - n.width / 2))) +
      MARGIN * 2 ∧
    (compute_layout root).height =
      (list_max ((compute_layout root).nodes.map (fun n => n.y + n.height / 2)) -
        list_min ((compute_layout root).nodes.map (fun n => n.y - n.height / 2))) +
      MARGIN * 2 := by
  exact normalize_bounds_spec (collect_nodes (placed_root root))
    (collect_nodes_ne_nil _)

/-- Witness for C2 at a concrete two-bullet document. -/
theorem c2_normalize_margins_witness :
    parse_mind_map_markdown ["- A", "- B"] =
      some (MindMapNode.mk "Mind Map" [MindMapNode.mk "A" [], MindMapNode.mk "B" []]) ∧
    list_min ((compute_layout
        (MindMapNode.mk "Mind Map" [MindMapNode.mk "A" [], MindMapNode.mk "B" []])).nodes.map
      (fun n => n.x - n.width / 2)) = MARGIN :=
  ⟨rfl, (c2_normalize_margins ["- A", "- B"]
    (MindMapNode.mk "Mind Map" [MindMapNode.mk "A" [], MindMapNode.mk "B" []]) rfl).1⟩

/-! ### Renderer agreement and downscale -/

/-- C9: the two renderers agree on node geometry under the documented axis
flip.  For the same input, every page-drawing rectangle is the
vector-graphic rectangle placed at `(x - width/2, canvas height - (y +
height/2))` with the same extent, and every page-drawing connector joins
the same centre pairs with each `y` replaced by `canvas height - y`. -/
theorem c9_renderers_agree (lines : List String) (root : MindMapNode)
    (h : parse_mind_map_markdown lines = some root) :
    drawing_node_rects (compute_layout root) =
      (svg_node_rects (compute_layout root)).map
        (fun r => ⟨r.x, (compute_layout root).height - r.y - r.h, r.w, r.h⟩) ∧
    drawing_edge_lines (compute_layout root) =
      (svg_edge_lines (compute_layout root)).map
        (fun e => ⟨e.x1, (compute_layout root).height - e.y1, e.x2,
          (compute_layout root).height - e.y2⟩) := by
  constructor
  · simp only [drawing_node_rects, svg_node_rects, List.map_map]
    apply List.map_congr_left
    intro n _
    simp only [Function.comp]
    congr 1
    ring
  · simp only [drawing_edge_lines, svg_edge_lines, List.map_map]
    apply List.map_congr_left
    intro e _
    simp only [Function.comp]

/-- Witness for C9 at a concrete two-bullet document. -/
theorem c9_renderers_agree_witness :
    parse_mind_map_markdown ["- A", "- B"] =
      some (MindMapNode.mk "Mind Map" [MindMapNode.mk "A" [], MindMapNode.mk "B" []]) ∧
    drawing_node_rects (compute_layout
        (MindMapNode.mk "Mind Map" [MindMapNode.mk "A" [], MindMapNode.mk "B" []])) =
      (svg_node_rects (compute_layout
          (MindMapNode.mk "Mind Map" [MindMapNode.mk "A" [], MindMapNode.mk "B" []]))).map
        (fun r => ⟨r.x,
          (compute_layout
            (MindMapNode.mk "Mind Map" [MindMapNode.mk "A" [], MindMapNode.mk "B" []])).height -
            r.y - r.h, r.w, r.h⟩) :=
  ⟨rfl, (c9_renderers_agree ["- A", "- B"]
    (MindMapNode.mk "Mind Map" [MindMapNode.mk "A" [], MindMapNode.mk "B" []]) rfl).1⟩

theorem list_min_mem : ∀ (l : List ℚ), l ≠ [] → list_min l ∈ l := by
  have haux : ∀ (t : List ℚ) (x : ℚ), t.foldl min x = x ∨ t.foldl min x ∈ t := by
    intro t
    induction t with
    | nil => intro x; left; rfl
    | cons a t ih =>
      intro x
      rcases ih (min x a) with h | h
      · rcases min_choice x a with hm | hm
        · left; simp only [List.foldl_cons]; rw [h, hm]
        · right; simp only [List.foldl_cons]; rw [h, hm]; simp
      · right
        simp only [List.foldl_cons]
        exact List.mem_cons_of_mem _ h
  intro l hne
  cases l with
  | nil => exact absurd rfl hne
  | cons x t =>
    rw [list_min]
    rcases haux t x with h | h
    · rw [h]; simp
    · exact List.mem_cons_of_mem _ h

theorem le_list_min (l : List ℚ) (t : ℚ) (hne : l ≠ []) (h : ∀ a ∈ l, t ≤ a) :
    t ≤ list_min l :=
  h _ (list_min_mem l hne)

theorem decorate_visit_width_bounds (t : MindMapNode) (dep nid : Nat) :
    135 ≤ (decorate_visit t dep nid).1.data.width ∧
    (decorate_visit t dep nid).1.data.width ≤ 360 ∧
    40 ≤ (decorate_visit t dep nid).1.data.height ∧
    (decorate_visit t dep nid).1.data.height ≤ 110 := by
  rcases t with ⟨title, cs⟩
  rw [decorate_visit]
  simp only [RNode.data]
  have hcard := wrap_text_card title (max 14 (24 - dep))
  refine ⟨?_, ?_, ?_, ?_⟩
  · exact le_max_left _ _
  · refine max_le (by rw [MIN_NODE_WIDTH]; norm_num) ?_
    exact le_trans (min_le_left _ _) (by rw [MAX_NODE_WIDTH])
  · exact le_max_left _ _
  · refine max_le (by norm_num) ?_
    have hlen : ((wrap_text title (max 14 (24 - dep))).length : ℚ) ≤ 6 := by
      exact_mod_cast hcard.2
    rw [NODE_PADDING_Y, LINE_HEIGHT]
    nlinarith

theorem collect_nodes_head (t : RNode) :
    collect_nodes t = ⟨t.data.node_id, t.data.title, t.data.lines, t.data.depth,
      t.data.x, t.data.y, t.data.width, t.data.height⟩ :: collect_list t.children := by
  rcases t with ⟨d, cs⟩
  rw [collect_nodes]
  rfl

theorem placed_root_data (rn : MindMapNode) :
    (placed_root rn).data = { (decorate_tree rn).data with x := (0 : ℚ), y := (0 : ℚ) } := by
  rw [placed_root]
  rcases (decorate_tree rn).children with _ | ⟨c, rest⟩
  · rfl
  · rfl

theorem layout_size_pos (rn : MindMapNode) :
    0 < (compute_layout rn).width ∧ 0 < (compute_layout rn).height := by
  have hw : (135 : ℚ) ≤ (decorate_tree rn).data.width := by
    rw [decorate_tree]; exact (decorate_visit_width_bounds rn 0 0).1
  have hh : (40 : ℚ) ≤ (decorate_tree rn).data.height := by
    rw [decorate_tree]; exact (decorate_visit_width_bounds rn 0 0).2.2.1
  have hhead := collect_nodes_head (placed_root rn)
  have hdata := placed_root_data rn
  have hwproj : (placed_root rn).data.width = (decorate_tree rn).data.width := by
    rw [hdata]
  have hhproj : (placed_root rn).data.height = (decorate_tree rn).data.height := by
    rw [hdata]
  set ns := collect_nodes (placed_root rn) with hns
  set p0 : PositionedNode := ⟨(placed_root rn).data.node_id, (placed_root rn).data.title,
    (placed_root rn).data.lines, (placed_root rn).data.depth, (placed_root rn).data.x,
    (placed_root rn).data.y, (placed_root rn).data.width, (placed_root rn).data.height⟩
    with hp0
  have hmem : p0 ∈ ns := by rw [hhead]; exact List.mem_cons_self _ _
  have hwidth0 : 0 ≤ p0.width := by
    show 0 ≤ (placed_root rn).data.width
    rw [hwproj]; linarith
  have hheight0 : 0 ≤ p0.height := by
    show 0 ≤ (placed_root rn).data.height
    rw [hhproj]; linarith
  constructor
  · have h1 : list_min (ns.map (fun n => n.x - n.width / 2)) ≤ p0.x - p0.width / 2 :=
      list_min_le_mem _ _ (List.mem_map_of_mem _ hmem)
    have h2 : p0.x + p0.width / 2 ≤ list_max (ns.map (fun n => n.x + n.width / 2)) :=
      list_max_ge_mem _ _ (List.mem_map_of_mem _ hmem)
    show 0 < (normalize_bounds ns).1
    rw [normalize_bounds]
    simp only
    rw [MARGIN]
    linarith
  · have h1 : list_min (ns.map (fun n => n.y - n.height / 2)) ≤ p0.y - p0.height / 2 :=
      list_min_le_mem _ _ (List.mem_map_of_mem _ hmem)
    have h2 : p0.y + p0.height / 2 ≤ list_max (ns.map (fun n => n.y + n.height / 2)) :=
      list_max_ge_mem _ _ (List.mem_map_of_mem _ hmem)
    show 0 < (normalize_bounds ns).2.1
    rw [normalize_bounds]
    simp only
    rw [MARGIN]
    linarith

theorem truthy_some (x : Option ℚ) (h : truthy x = true) : ∃ v, x = some v ∧ v ≠ 0 := by
  cases x with
  | none => exact absurd h (by simp [truthy])
  | some v => exact ⟨v, rfl, by simpa [truthy] using h⟩

theorem truthy_of_pos (x : Option ℚ) (v : ℚ) (hx : x = some v) (hv : 0 < v) :
    truthy x = true := by
  rw [hx]
  simp [truthy]
  exact hv.ne'

theorem apply_scale_spec (d : Drawing) (mw mh : Option ℚ)
    (hW : 0 < d.width) (hH : 0 < d.height) (hs1 : d.scale = 1)
    (hw : ∀ w0, mw = some w0 → 0 < w0) (hh : ∀ h0, mh = some h0 → 0 < h0) :
    ∃ s : ℚ, 0 < s ∧ s ≤ 1 ∧
      (apply_scale d mw mh).scale = s ∧
      (apply_scale d mw mh).width = d.width * s ∧
      (apply_scale d mw mh).height = d.height * s ∧
      (apply_scale d mw mh).lines = d.lines ∧
      (apply_scale d mw mh).rects = d.rects ∧
      (apply_scale d mw mh).texts = d.texts ∧
      (∀ w0, mw = some w0 → (apply_scale d mw mh).width ≤ w0) ∧
      (∀ h0, mh = some h0 → (apply_scale d mw mh).height ≤ h0) ∧
      (∀ t : ℚ, t ≤ 1 →
        (∀ w0, mw = some w0 → d.width * t ≤ w0) →
        (∀ h0, mh = some h0 → d.height * t ≤ h0) → t ≤ s) ∧
      ((∀ w0, mw = some w0 → d.width ≤ w0) →
       (∀ h0, mh = some h0 → d.height ≤ h0) → s = 1) := by
  by_cases hc : truthy mw = true ∨ truthy mh = true
  · set F : List ℚ := [(1 : ℚ)] ++
      (if truthy mw then [(mw.getD 0) / d.width] else []) ++
      (if truthy mh then [(mh.getD 0) / d.height] else []) with hF
    have hFne : F ≠ [] := by
      rw [hF]
      simp
    have h1F : (1 : ℚ) ∈ F := by
      rw [hF]
      simp
    have hmemF : ∀ a ∈ F, a = 1 ∨ (∃ w0, mw = some w0 ∧ a = w0 / d.width) ∨
        (∃ h0, mh = some h0 ∧ a = h0 / d.height) := by
      intro a ha
      rw [hF] at ha
      rcases List.mem_append.1 ha with h12 | h3
      · rcases List.mem_append.1 h12 with h1 | h2
        · left
          simpa using h1
        · right; left
          by_cases hmw : truthy mw = true
          · rw [if_pos hmw] at h2
            rcases truthy_some mw hmw with ⟨v, hv, _⟩
            refine ⟨v, hv, ?_⟩
            have : a = (mw.getD 0) / d.width := by simpa using h2
            rw [this, hv]
            rfl
          · rw [if_neg hmw] at h2
            exact absurd h2 (List.not_mem_nil a)
      · right; right
        by_cases hmh : truthy mh = true
        · rw [if_pos hmh] at h3
          rcases truthy_some mh hmh with ⟨v, hv, _⟩
          refine ⟨v, hv, ?_⟩
          have : a = (mh.getD 0) / d.height := by simpa using h3
          rw [this, hv]
          rfl
        · rw [if_neg hmh] at h3
          exact absurd h3 (List.not_mem_nil a)
    have hwF : ∀ w0, mw = some w0 → w0 / d.width ∈ F := by
      intro w0 hm
      have ht : truthy mw = true := truthy_of_pos mw w0 hm (hw w0 hm)
      rw [hF]
      refine List.mem_append.2 (Or.inl (List.mem_append.2 (Or.inr ?_)))
      rw [if_pos ht, hm]
      simp
    have hhF : ∀ h0, mh = some h0 → h0 / d.height ∈ F := by
      intro h0 hm
      have ht : truthy mh = true := truthy_of_pos mh h0 hm (hh h0 hm)
      rw [hF]
      refine List.mem_append.2 (Or.inr ?_)
      rw [if_pos ht, hm]
      simp
    have hspos : 0 < list_min F := by
      rcases hmemF _ (list_min_mem F hFne) with he | ⟨w0, hm, he⟩ | ⟨h0, hm, he⟩
      · rw [he]; norm_num
      · rw [he]; exact div_pos (hw w0 hm) hW
      · rw [he]; exact div_pos (hh h0 hm) hH
    have hsle1 : list_min F ≤ 1 := list_min_le_mem F 1 h1F
    have hlower : ∀ t : ℚ, t ≤ 1 →
        (∀ w0, mw = some w0 → d.width * t ≤ w0) →
        (∀ h0, mh = some h0 → d.height * t ≤ h0) → t ≤ list_min F := by
      intro t ht hwt hht
      apply le_list_min F t hFne
      intro a ha
      rcases hmemF a ha with rfl | ⟨w0, hm, rfl⟩ | ⟨h0, hm, rfl⟩
      · exact ht
      · rw [le_div_iff hW, mul_comm]
        exact hwt w0 hm
      · rw [le_div_iff hH, mul_comm]
        exact hht h0 hm
    by_cases hlt : list_min F < 1
    · have happ : apply_scale d mw mh =
          { d with width := d.width * list_min F, height := d.height * list_min F,
                   scale := list_min F } := by
        rw [apply_scale, if_pos hc]
        simp only
        rw [if_pos hlt]
      refine ⟨list_min F, hspos, hsle1, ?_, ?_, ?_, ?_, ?_, ?_, ?_, ?_,
        fun t ht hwt hht => hlower t ht hwt hht, ?_⟩
      · rw [happ]
      · rw [happ]
      · rw [happ]
      · rw [happ]
      · rw [happ]
      · rw [happ]
      · intro w0 hm
        rw [happ]
        show d.width * list_min F ≤ w0
        have := list_min_le_mem F _ (hwF w0 hm)
        rw [mul_comm, ← le_div_iff hW]
        exact this
      · intro h0 hm
        rw [happ]
        show d.height * list_min F ≤ h0
        have := list_min_le_mem F _ (hhF h0 hm)
        rw [mul_comm, ← le_div_iff hH]
        exact this
      · intro hfw hfh
        exfalso
        refine absurd hlt (not_lt.2 (hlower 1 le_rfl ?_ ?_))
        · intro w0 hm
          rw [mul_one]
          exact hfw w0 hm
        · intro h0 hm
          rw [mul_one]
          exact hfh h0 hm
    · have happ : apply_scale d mw mh = d := by
        rw [apply_scale, if_pos hc]
        simp only
        rw [if_neg hlt]
      have hs1' : list_min F = 1 := le_antisymm hsle1 (not_lt.1 hlt)
      refine ⟨1, one_pos, le_rfl, ?_, ?_, ?_, ?_, ?_, ?_, ?_, ?_,
        fun t ht _ _ => ht, fun _ _ => rfl⟩
      · rw [happ]
        exact hs1
      · rw [happ, mul_one]
      · rw [happ, mul_one]
      · rw [happ]
      · rw [happ]
      · rw [happ]
      · intro w0 hm
        rw [happ]
        have h1 : (1 : ℚ) ≤ w0 / d.width := hs1' ▸ list_min_le_mem F _ (hwF w0 hm)
        rw [le_div_iff hW, one_mul] at h1
        exact h1
      · intro h0 hm
        rw [happ]
        have h1 : (1 : ℚ) ≤ h0 / d.height := hs1' ▸ list_min_le_mem F _ (hhF h0 hm)
        rw [le_div_iff hH, one_mul] at h1
        exact h1
  · have hmwn : mw = none := by
      cases hx : mw with
      | none => rfl
      | some v =>
        exact absurd (truthy_of_pos mw v hx (hw v hx)) (fun ht => hc (Or.inl ht))
    have hmhn : mh = none := by
      cases hx : mh with
      | none => rfl
      | some v =>
        exact absurd (truthy_of_pos mh v hx (hh v hx)) (fun ht => hc (Or.inr ht))
    have happ : apply_scale d mw mh = d := by
      rw [apply_scale, if_neg hc]
    refine ⟨1, one_pos, le_rfl, ?_, ?_, ?_, ?_, ?_, ?_, ?_, ?_,
      fun t ht _ _ => ht, fun _ _ => rfl⟩
    · rw [happ, hs1]
    · rw [happ, mul_one]
    · rw [happ, mul_one]
    · rw [happ]
    · rw [happ]
    · rw [happ]
    · intro w0 hm
      rw [hmwn] at hm
      exact absurd hm (by simp)
    · intro h0 hm
      rw [hmhn] at hm
      exact absurd hm (by simp)

/-- C8: page-drawing downscale.  For every parseable input and supplied
positive bounds, the renderer returns a drawing whose geometry is the
unscaled layout geometry together with a uniform scale factor `s` with
`0 < s ≤ 1`: the reported width and height are the natural extents times
`s`, the result satisfies every supplied bound, `s` is the largest factor
`≤ 1` doing so, and when the natural size already fits the bounds the
drawing is left unscaled (`s = 1`, never upscaled). -/
theorem c8_downscale (lines : List String) (root : MindMapNode)
    (mw mh : Option ℚ)
    (hp : parse_mind_map_markdown lines = some root)
    (hw : ∀ w0, mw = some w0 → 0 < w0)
    (hh : ∀ h0, mh = some h0 → 0 < h0) :
    ∃ d : Drawing, render_mind_map_drawing lines mw mh = some d ∧
      ∃ s : ℚ, 0 < s ∧ s ≤ 1 ∧ d.scale = s ∧
        d.width = (compute_layout root).width * s ∧
        d.height = (compute_layout root).height * s ∧
        d.lines = drawing_edge_lines (compute_layout root) ∧
        d.rects = drawing_node_rects (compute_layout root) ∧
        d.texts = drawing_node_texts (compute_layout root) ∧
        (∀ w0, mw = some w0 → d.width ≤ w0) ∧
        (∀ h0, mh = some h0 → d.height ≤ h0) ∧
        (∀ t : ℚ, t ≤ 1 →
          (∀ w0, mw = some w0 → (compute_layout root).width * t ≤ w0) →
          (∀ h0, mh = some h0 → (compute_layout root).height * t ≤ h0) →
          t ≤ s) ∧
        ((∀ w0, mw = some w0 → (compute_layout root).width ≤ w0) →
         (∀ h0, mh = some h0 → (compute_layout root).height ≤ h0) → s = 1) := by
  set d0 : Drawing := ⟨(compute_layout root).width, (compute_layout root).height,
    drawing_edge_lines (compute_layout root), drawing_node_rects (compute_layout root),
    drawing_node_texts (compute_layout root), 1⟩ with hd0
  refine ⟨apply_scale d0 mw mh, ?_, ?_⟩
  · rw [render_mind_map_drawing, hp]
  · obtain ⟨s, hpos, hle1, hsc, hwid, hhei, hlin, hrec, htex, hbw, hbh, hmax, hfit⟩ :=
      apply_scale_spec d0 mw mh (layout_size_pos root).1 (layout_size_pos root).2 rfl hw hh
    exact ⟨s, hpos, hle1, hsc, hwid, hhei, hlin, hrec, htex, hbw, hbh, hmax, hfit⟩

/-- Witness for C8 with no supplied bounds on a concrete document. -/
theorem c8_downscale_witness :
    parse_mind_map_markdown ["- A"] = some (MindMapNode.mk "A" []) ∧
    (∀ w0 : ℚ, (none : Option ℚ) = some w0 → 0 < w0) ∧
    (∀ h0 : ℚ, (none : Option ℚ) = some h0 → 0 < h0) ∧
    (∃ d : Drawing, render_mind_map_drawing ["- A"] none none = some d ∧
      ∃ s : ℚ, 0 < s ∧ s ≤ 1 ∧ d.scale = s ∧
        d.width = (compute_layout (MindMapNode.mk "A" [])).width * s ∧
        d.height = (compute_layout (MindMapNode.mk "A" [])).height * s ∧
        d.lines = drawing_edge_lines (compute_layout (MindMapNode.mk "A" [])) ∧
        d.rects = drawing_node_rects (compute_layout (MindMapNode.mk "A" [])) ∧
        d.texts = drawing_node_texts (compute_layout (MindMapNode.mk "A" [])) ∧
        (∀ w0 : ℚ, (none : Option ℚ) = some w0 → d.width ≤ w0) ∧
        (∀ h0 : ℚ, (none : Option ℚ) = some h0 → d.height ≤ h0) ∧
        (∀ t : ℚ, t ≤ 1 →
          (∀ w0 : ℚ, (none : Option ℚ) = some w0 →
            (compute_layout (MindMapNode.mk "A" [])).width * t ≤ w0) →
          (∀ h0 : ℚ, (none : Option ℚ) = some h0 →
            (compute_layout (MindMapNode.mk "A" [])).height * t ≤ h0) →
          t ≤ s) ∧
        ((∀ w0 : ℚ, (none : Option ℚ) = some w0 →
            (compute_layout (MindMapNode.mk "A" [])).width ≤ w0) →
         (∀ h0 : ℚ, (none : Option ℚ) = some h0 →
            (compute_layout (MindMapNode.mk "A" [])).height ≤ h0) →
         s = 1)) :=
  ⟨rfl, fun _ h => Option.noConfusion h, fun _ h => Option.noConfusion h,
    c8_downscale ["- A"] (MindMapNode.mk "A" []) none none rfl
      (fun _ h => Option.noConfusion h) (fun _ h => Option.noConfusion h)⟩

/-! ### Identifier bookkeeping: C5 -/

theorem node_ids_mk (d : RData) (cs : List RNode) :
    node_ids (RNode.mk d cs) = d.node_id :: node_ids_list cs := by
  rw [node_ids, collect_nodes, node_ids_list]
  rfl

theorem node_ids_head (t : RNode) :
    node_ids t = t.data.node_id :: node_ids_list t.children := by
  rcases t with ⟨d, cs⟩
  exact node_ids_mk d cs

theorem node_ids_list_cons (c : RNode) (ts : List RNode) :
    node_ids_list (c :: ts) = node_ids c ++ node_ids_list ts := by
  rw [node_ids_list, collect_list, List.map_append, node_ids, node_ids_list]

theorem range1_append : ∀ (m s n : Nat),
    List.range' s m ++ List.range' (s + m) n = List.range' s (m + n) := by
  intro m
  induction m with
  | zero =>
    intro s n
    simp
  | succ k ih =>
    intro s n
    have h1 : List.range' s (k + 1) = s :: List.range' (s + 1) k := rfl
    have h2 : List.range' s (k + 1 + n) = s :: List.range' (s + 1) (k + n) := by
      have he : k + 1 + n = (k + n) + 1 := by omega
      rw [he]
      rfl
    rw [h1, h2, List.cons_append]
    congr 1
    have he : s + (k + 1) = (s + 1) + k := by omega
    rw [he]
    exact ih (s + 1) n

theorem decorate_visit_snd (title : String) (cs : List MindMapNode) (d n : Nat) :
    (decorate_visit (.mk title cs) d n).2 = (decorate_children cs (d + 1) (n + 1)).2 := rfl

theorem decorate_visit_fst_ids (title : String) (cs : List MindMapNode) (d n : Nat) :
    node_ids (decorate_visit (.mk title cs) d n).1 =
      n :: node_ids_list (decorate_children cs (d + 1) (n + 1)).1 := rfl

theorem decorate_children_ids (cs : List MindMapNode)
    (ih : ∀ c ∈ cs, ∀ (d n : Nat), ∃ m, (decorate_visit c d n).2 = n + m ∧
      node_ids (decorate_visit c d n).1 = List.range' n m) :
    ∀ (d n : Nat), ∃ m, (decorate_children cs d n).2 = n + m ∧
      node_ids_list (decorate_children cs d n).1 = List.range' n m := by
  induction cs with
  | nil =>
    intro d n
    refine ⟨0, ?_, ?_⟩
    · rw [decorate_children]
      rfl
    · rw [decorate_children]
      rfl
  | cons c rest ihr =>
    intro d n
    obtain ⟨m1, h1, h1'⟩ := ih c (by simp) d n
    obtain ⟨m2, h2, h2'⟩ :=
      ihr (fun x hx => ih x (by simp [hx])) d (decorate_visit c d n).2
    refine ⟨m1 + m2, ?_, ?_⟩
    · show (decorate_children rest d (decorate_visit c d n).2).2 = n + (m1 + m2)
      rw [h2, h1]
      omega
    · show node_ids_list ((decorate_visit c d n).1 ::
        (decorate_children rest d (decorate_visit c d n).2).1) = List.range' n (m1 + m2)
      rw [node_ids_list_cons, h1', h2', h1]
      exact range1_append m1 n m2

theorem decorate_visit_ids (t : MindMapNode) :
    ∀ (d n : Nat), ∃ m, (decorate_visit t d n).2 = n + m ∧
      node_ids (decorate_visit t d n).1 = List.range' n m := by
  induction t using MindMapNode.mindmap_mem_ind with
  | h title cs ih =>
    intro d n
    obtain ⟨m, h2, h2'⟩ := decorate_children_ids cs ih (d + 1) (n + 1)
    refine ⟨m + 1, ?_, ?_⟩
    · rw [decorate_visit_snd, h2]
      omega
    · rw [decorate_visit_fst_ids, h2']
      rfl

theorem forall2_node_ids_list {xs ys : List RNode}
    (h : List.Forall₂ (fun a b => node_ids a = node_ids b) xs ys) :
    node_ids_list xs = node_ids_list ys := by
  induction h with
  | nil => rfl
  | cons h1 h2 ih => rw [node_ids_list_cons, node_ids_list_cons, h1, ih]

theorem place_subtree_nil (d : RData) (side : ℚ) (dep : Nat) (cy : ℚ) :
    place_subtree (RNode.mk d []) side dep cy =
      RNode.mk { d with x := side * (dep : ℚ) * H_STEP, y := cy } [] := rfl

theorem place_subtree_cons (d : RData) (c : RNode) (rest : List RNode)
    (side : ℚ) (dep : Nat) (cy : ℚ) :
    place_subtree (RNode.mk d (c :: rest)) side dep cy =
      RNode.mk { d with
                 x := side * (dep : ℚ) * H_STEP,
                 y := ((place_run V_GAP side (dep + 1) (c :: rest)
                     (cy - run_total V_GAP (c :: rest) / 2)).map root_y).sum /
                   ((((place_run V_GAP side (dep + 1) (c :: rest)
                     (cy - run_total V_GAP (c :: rest) / 2)).map root_y).length : ℚ)) }
        (place_run V_GAP side (dep + 1) (c :: rest)
          (cy - run_total V_GAP (c :: rest) / 2)) := rfl

theorem place_run_forall2 (cs : List RNode)
    (ih : ∀ c ∈ cs, ∀ (side : ℚ) (dep : Nat) (cy : ℚ),
      node_ids (place_subtree c side dep cy) = node_ids c) :
    ∀ (gap side : ℚ) (dep : Nat) (start : ℚ),
      List.Forall₂ (fun a b => node_ids a = node_ids b)
        (place_run gap side dep cs start) cs := by
  induction cs with
  | nil =>
    intro gap side dep start
    exact List.Forall₂.nil
  | cons c rest ihr =>
    intro gap side dep start
    exact List.Forall₂.cons (ih c (by simp) side dep _)
      (ihr (fun x hx => ih x (by simp [hx])) gap side dep _)

theorem place_subtree_ids (t : RNode) :
    ∀ (side : ℚ) (dep : Nat) (cy : ℚ),
      node_ids (place_subtree t side dep cy) = node_ids t := by
  induction t using RNode.rnode_mem_ind with
  | h d cs ih =>
    intro side dep cy
    cases cs with
    | nil =>
      rw [place_subtree_nil, node_ids_mk, node_ids_mk]
    | cons c rest =>
      rw [place_subtree_cons, node_ids_mk, node_ids_mk]
      rw [forall2_node_ids_list (place_run_forall2 (c :: rest) ih V_GAP side (dep + 1)
        (cy - run_total V_GAP (c :: rest) / 2))]

theorem merge_sides_forall2 {R : RNode → RNode → Prop} :
    ∀ (fs : List Bool) (cs ls rs : List RNode),
      fs.length = cs.length →
      List.Forall₂ R ls (select_side true fs cs) →
      List.Forall₂ R rs (select_side false fs cs) →
      List.Forall₂ R (merge_sides fs ls rs) cs := by
  intro fs
  induction fs with
  | nil =>
    intro cs ls rs hlen hl hr
    cases cs with
    | nil =>
      cases hl with
      | nil =>
        cases hr with
        | nil => exact List.Forall₂.nil
    | cons c t => exact absurd hlen (by simp)
  | cons f fs ih =>
    intro cs ls rs hlen hl hr
    cases cs with
    | nil => exact absurd hlen (by simp)
    | cons c t =>
      have hlen' : fs.length = t.length := by simpa using hlen
      cases f with
      | true =>
        have hst : select_side true (true :: fs) (c :: t) = c :: select_side true fs t := rfl
        have hsf : select_side false (true :: fs) (c :: t) = select_side false fs t := rfl
        rw [hst] at hl
        rw [hsf] at hr
        cases hl with
        | cons h1 h2 =>
          exact List.Forall₂.cons h1 (ih t _ rs hlen' h2 hr)
      | false =>
        have hst : select_side true (false :: fs) (c :: t) = select_side true fs t := rfl
        have hsf : select_side false (false :: fs) (c :: t) = c :: select_side false fs t := rfl
        rw [hst] at hl
        rw [hsf] at hr
        cases hr with
        | cons h1 h2 =>
          exact List.Forall₂.cons h1 (ih t ls _ hlen' hl h2)

theorem side_flags_go_length : ∀ (cs : List RNode) (lh rh : ℚ),
    (side_flags_go cs lh rh).length = cs.length := by
  intro cs
  induction cs with
  | nil =>
    intro lh rh
    rfl
  | cons c t ih =>
    intro lh rh
    rw [side_flags_go]
    split
    · simp [ih]
    · simp [ih]

theorem select_true_true (fs : List Bool) (c : RNode) (cs : List RNode) :
    select_side true (true :: fs) (c :: cs) = c :: select_side true fs cs := rfl

theorem select_false_true (fs : List Bool) (c : RNode) (cs : List RNode) :
    select_side false (true :: fs) (c :: cs) = select_side false fs cs := rfl

theorem select_true_false (fs : List Bool) (c : RNode) (cs : List RNode) :
    select_side true (false :: fs) (c :: cs) = select_side true fs cs := rfl

theorem select_false_false (fs : List Bool) (c : RNode) (cs : List RNode) :
    select_side false (false :: fs) (c :: cs) = c :: select_side false fs cs := rfl

theorem split_go_select : ∀ (cs left right : List RNode) (lh rh : ℚ),
    split_go cs left right lh rh =
      (left ++ select_side true (side_flags_go cs lh rh) cs,
       right ++ select_side false (side_flags_go cs lh rh) cs) := by
  intro cs
  induction cs with
  | nil =>
    intro left right lh rh
    rw [split_go, side_flags_go]
    simp [select_side]
  | cons c t ih =>
    intro left right lh rh
    rw [split_go, side_flags_go]
    by_cases h : lh ≤ rh
    · rw [if_pos h, if_pos h, ih, select_true_true, select_false_true, List.append_assoc]
      rfl
    · rw [if_neg h, if_neg h, ih, select_true_false, select_false_false, List.append_assoc]
      rfl

theorem select_side_all (b : Bool) : ∀ (fs : List Bool) (cs : List RNode),
    fs.length = cs.length → (∀ f ∈ fs, f = b) → select_side b fs cs = cs := by
  intro fs
  induction fs with
  | nil =>
    intro cs hlen _
    cases cs with
    | nil => rfl
    | cons c t => exact absurd hlen (by simp)
  | cons f fs ih =>
    intro cs hlen hall
    cases cs with
    | nil => exact absurd hlen (by simp)
    | cons c t =>
      have hf : f = b := hall f (by simp)
      subst hf
      rw [select_side, if_pos rfl,
        ih t (by simpa using hlen) (fun x hx => hall x (by simp [hx]))]

theorem select_side_none (b : Bool) : ∀ (fs : List Bool) (cs : List RNode),
    (∀ f ∈ fs, f ≠ b) → select_side b fs cs = [] := by
  intro fs
  induction fs with
  | nil =>
    intro cs _
    cases cs with
    | nil => rfl
    | cons c t => rfl
  | cons f fs ih =>
    intro cs hall
    cases cs with
    | nil => rfl
    | cons c t =>
      rw [select_side, if_neg (hall f (by simp))]
      exact ih t (fun x hx => hall x (by simp [hx]))

theorem select_side_ne_nil (b : Bool) : ∀ (fs : List Bool) (cs : List RNode),
    fs.length = cs.length → (∃ f ∈ fs, f = b) → select_side b fs cs ≠ [] := by
  intro fs
  induction fs with
  | nil =>
    intro cs _ hex
    simp at hex
  | cons f fs ih =>
    intro cs hlen hex
    cases cs with
    | nil => simp at hlen
    | cons c t =>
      by_cases hf : f = b
      · subst hf
        rw [select_side, if_pos rfl]
        exact List.cons_ne_nil _ _
      · rw [select_side, if_neg hf]
        apply ih t (by simpa using hlen)
        rcases hex with ⟨g, hg, hgb⟩
        rcases List.mem_cons.1 hg with rfl | hg'
        · exact absurd hgb hf
        · exact ⟨g, hg', hgb⟩

theorem side_flags_go_head (c : RNode) (t : List RNode) :
    side_flags_go (c :: t) 0 0 = true :: side_flags_go t (0 + subtree_height c) 0 := by
  rw [side_flags_go]
  rw [if_pos le_rfl]

theorem side_flags_cons (c : RNode) (t : List RNode) :
    side_flags (c :: t) =
      if (true :: side_flags_go t (0 + subtree_height c) 0).all (fun b => b) then
        false :: (side_flags_go t (0 + subtree_height c) 0).map (fun _ => true)
      else true :: side_flags_go t (0 + subtree_height c) 0 := by
  rw [side_flags, side_flags_go_head]

theorem side_flags_length (cs : List RNode) : (side_flags cs).length = cs.length := by
  cases cs with
  | nil => rfl
  | cons c t =>
    rw [side_flags_cons]
    split
    · simp [side_flags_go_length]
    · simp [side_flags_go_length]

theorem split_select (c : RNode) (rest : List RNode) :
    split_top_level_children (c :: rest) =
      (select_side true (side_flags (c :: rest)) (c :: rest),
       select_side false (side_flags (c :: rest)) (c :: rest)) := by
  have hlen1 : (side_flags_go rest (0 + subtree_height c) 0).length = rest.length :=
    side_flags_go_length rest _ _
  have hp : split_go (c :: rest) [] [] 0 0 =
      (c :: select_side true (side_flags_go rest (0 + subtree_height c) 0) rest,
       select_side false (side_flags_go rest (0 + subtree_height c) 0) rest) := by
    rw [split_go_select, side_flags_go_head, select_true_true, select_false_true,
      List.nil_append, List.nil_append]
  by_cases hall : ∀ f ∈ side_flags_go rest (0 + subtree_height c) 0, f = true
  · have hselT : select_side true (side_flags_go rest (0 + subtree_height c) 0) rest = rest :=
      select_side_all true _ rest hlen1 hall
    have hselF : select_side false (side_flags_go rest (0 + subtree_height c) 0) rest = [] :=
      select_side_none false _ rest (fun f hf => by rw [hall f hf]; simp)
    have hallb : (true :: side_flags_go rest (0 + subtree_height c) 0).all
        (fun b => b) = true := by
      rw [List.all_eq_true]
      intro x hx
      rcases List.mem_cons.1 hx with rfl | hx'
      · rfl
      · exact hall x hx'
    have hsf : side_flags (c :: rest) =
        false :: (side_flags_go rest (0 + subtree_height c) 0).map (fun _ => true) := by
      rw [side_flags_cons, if_pos hallb]
    have hrhsT : select_side true (side_flags (c :: rest)) (c :: rest) = rest := by
      rw [hsf, select_true_false]
      exact select_side_all true _ rest (by rw [List.length_map]; exact hlen1) (fun f hf => by
        rcases List.mem_map.1 hf with ⟨y, _, hy⟩
        exact hy.symm)
    have hrhsF : select_side false (side_flags (c :: rest)) (c :: rest) = [c] := by
      rw [hsf, select_false_false,
        select_side_none false _ rest (fun f hf => by
          rcases List.mem_map.1 hf with ⟨y, _, hy⟩
          rw [← hy]
          simp)]
    rw [split_top_level_children, hp, hselT, hselF, hrhsT, hrhsF]
    simp
  · have hex : ∃ f ∈ side_flags_go rest (0 + subtree_height c) 0, f = false := by
      push_neg at hall
      rcases hall with ⟨f, hf, hfne⟩
      exact ⟨f, hf, by cases f <;> simp_all⟩
    have hselF : select_side false (side_flags_go rest (0 + subtree_height c) 0) rest ≠ [] :=
      select_side_ne_nil false _ rest hlen1 hex
    have hna : ¬((true :: side_flags_go rest (0 + subtree_height c) 0).all
        (fun b => b) = true) := by
      rw [List.all_eq_true]
      intro hc2
      rcases hex with ⟨f, hf, hfb⟩
      have hft := hc2 f (List.mem_cons_of_mem _ hf)
      rw [hfb] at hft
      exact Bool.false_ne_true hft
    have hsf : side_flags (c :: rest) =
        true :: side_flags_go rest (0 + subtree_height c) 0 := by
      rw [side_flags_cons, if_neg hna]
    rw [split_top_level_children, hp, hsf, select_true_true, select_false_true]
    have hselF2 : select_side false (side_flags_go rest (subtree_height c) 0) rest ≠ [] := by
      rwa [zero_add] at hselF
    simp [List.isEmpty_iff, hselF, hselF2]

theorem placed_root_ids (rn : MindMapNode) :
    node_ids (placed_root rn) = node_ids (decorate_tree rn) := by
  rcases hdt : decorate_tree rn with ⟨d, cs⟩
  rw [placed_root, hdt]
  cases cs with
  | nil => rfl
  | cons c rest =>
    show node_ids (RNode.mk { d with x := (0 : ℚ), y := (0 : ℚ) }
        (merge_sides (side_flags (c :: rest))
          (place_side_list (split_top_level_children (c :: rest)).1 (-1))
          (place_side_list (split_top_level_children (c :: rest)).2 1))) =
      node_ids (RNode.mk d (c :: rest))
    rw [node_ids_mk, node_ids_mk]
    have hT : (split_top_level_children (c :: rest)).1 =
        select_side true (side_flags (c :: rest)) (c :: rest) := by rw [split_select]
    have hF : (split_top_level_children (c :: rest)).2 =
        select_side false (side_flags (c :: rest)) (c :: rest) := by rw [split_select]
    have hmerge : node_ids_list (merge_sides (side_flags (c :: rest))
        (place_side_list (split_top_level_children (c :: rest)).1 (-1))
        (place_side_list (split_top_level_children (c :: rest)).2 1)) =
        node_ids_list (c :: rest) := by
      apply forall2_node_ids_list
      apply merge_sides_forall2 (side_flags (c :: rest)) (c :: rest) _ _
        (side_flags_length (c :: rest))
      · rw [hT, place_side_list]
        exact place_run_forall2 _ (fun x _ => place_subtree_ids x) TOP_LEVEL_GAP (-1) 1 _
      · rw [hF, place_side_list]
        exact place_run_forall2 _ (fun x _ => place_subtree_ids x) TOP_LEVEL_GAP 1 1 _
    rw [hmerge]

theorem normalize_nodes_eq (ns : List PositionedNode) :
    (normalize_bounds ns).2.2 = ns.map (fun n =>
      { n with
        x := n.x + (MARGIN - list_min (ns.map (fun n => n.x - n.width / 2))),
        y := n.y + (MARGIN - list_min (ns.map (fun n => n.y - n.height / 2))) }) := rfl

theorem compute_layout_map_node_id (rn : MindMapNode) :
    (compute_layout rn).nodes.map (fun n => n.node_id) = node_ids (placed_root rn) := by
  have h0 : (compute_layout rn).nodes =
      (normalize_bounds (collect_nodes (placed_root rn))).2.2 := rfl
  rw [h0, normalize_nodes_eq, List.map_map, node_ids]
  apply List.map_congr_left
  intro n _
  rfl

theorem compute_layout_ids_range (rn : MindMapNode) :
    (compute_layout rn).nodes.map (fun n => n.node_id) =
      List.range (compute_layout rn).nodes.length := by
  obtain ⟨m, _, hids⟩ := decorate_visit_ids rn 0 0
  have hplaced : node_ids (placed_root rn) = List.range' 0 m := by
    rw [placed_root_ids]
    show node_ids (decorate_visit rn 0 0).1 = List.range' 0 m
    exact hids
  have hlen : (compute_layout rn).nodes.length = m := by
    have h2 := congrArg List.length ((compute_layout_map_node_id rn).trans hplaced)
    simpa using h2
  rw [compute_layout_map_node_id, hplaced, hlen, List.range_eq_range']

theorem edge_list_mem (pid : Nat) (cs : List RNode)
    (ih : ∀ c ∈ cs, ∀ e ∈ collect_edges c, e.1 ∈ node_ids c ∧ e.2 ∈ node_ids c) :
    ∀ e ∈ edge_list pid cs,
      (e.1 = pid ∨ e.1 ∈ node_ids_list cs) ∧ e.2 ∈ node_ids_list cs := by
  induction cs with
  | nil =>
    intro e he
    rw [edge_list] at he
    exact absurd he (List.not_mem_nil e)
  | cons c rest ihr =>
    intro e he
    rw [edge_list] at he
    rcases List.mem_cons.1 he with rfl | he'
    · refine ⟨Or.inl rfl, ?_⟩
      rw [node_ids_list_cons, node_ids_head]
      simp
    · rcases List.mem_append.1 he' with hc | hr
      · have hm := ih c (by simp) e hc
        refine ⟨Or.inr ?_, ?_⟩
        · rw [node_ids_list_cons]
          exact List.mem_append.2 (Or.inl hm.1)
        · rw [node_ids_list_cons]
          exact List.mem_append.2 (Or.inl hm.2)
      · have hm := ihr (fun x hx => ih x (by simp [hx])) e hr
        refine ⟨?_, ?_⟩
        · rcases hm.1 with h | h
          · exact Or.inl h
          · refine Or.inr ?_
            rw [node_ids_list_cons]
            exact List.mem_append.2 (Or.inr h)
        · rw [node_ids_list_cons]
          exact List.mem_append.2 (Or.inr hm.2)

theorem collect_edges_mem (t : RNode) :
    ∀ e ∈ collect_edges t, e.1 ∈ node_ids t ∧ e.2 ∈ node_ids t := by
  induction t using RNode.rnode_mem_ind with
  | h d cs ih =>
    intro e he
    rw [collect_edges] at he
    have hm := edge_list_mem d.node_id cs ih e he
    constructor
    · rw [node_ids_mk]
      rcases hm.1 with h | h
      · rw [h]
        exact List.mem_cons_self _ _
      · exact List.mem_cons_of_mem _ h
    · rw [node_ids_mk]
      exact List.mem_cons_of_mem _ hm.2

theorem placed_root_node_id (rn : MindMapNode) : (placed_root rn).data.node_id = 0 := by
  rw [placed_root_data rn]
  rcases rn with ⟨title, cs⟩
  rfl

theorem placed_root_title (rn : MindMapNode) : (placed_root rn).data.title = rn.title := by
  rw [placed_root_data rn]
  rcases rn with ⟨title, cs⟩
  rfl

theorem placed_root_depth (rn : MindMapNode) : (placed_root rn).data.depth = 0 := by
  rw [placed_root_data rn]
  rcases rn with ⟨title, cs⟩
  rfl

theorem compute_layout_head (rn : MindMapNode) :
    ∃ r rest, (compute_layout rn).nodes = r :: rest ∧
      r.node_id = (placed_root rn).data.node_id ∧
      r.title = (placed_root rn).data.title ∧
      r.depth = (placed_root rn).data.depth := by
  have h0 : (compute_layout rn).nodes =
      (normalize_bounds (collect_nodes (placed_root rn))).2.2 := rfl
  rw [h0, normalize_nodes_eq, collect_nodes_head, List.map_cons]
  exact ⟨_, _, rfl, rfl, rfl, rfl⟩

/-- C5: in the final layout of every parseable input, the node identifiers
read off the node list in order are exactly `0, 1, ..., n-1` (the single
pre-order counter), hence pairwise distinct; every edge's parent and child
identifiers are identifiers of nodes present in the node list; and the node
list's first element is the tree root (identifier `0`, the root's title,
depth `0`). -/
theorem c5_unique_ids_valid_edges (lines : List String) (root : MindMapNode)
    (hp : parse_mind_map_markdown lines = some root) :
    (compute_layout root).nodes.map (fun n => n.node_id) =
      List.range (compute_layout root).nodes.length ∧
    ((compute_layout root).nodes.map (fun n => n.node_id)).Nodup ∧
    (∀ e ∈ (compute_layout root).edges,
      (∃ n ∈ (compute_layout root).nodes, n.node_id = e.1) ∧
      (∃ n ∈ (compute_layout root).nodes, n.node_id = e.2)) ∧
    ∃ r rest, (compute_layout root).nodes = r :: rest ∧ r.node_id = 0 ∧
      r.title = root.title ∧ r.depth = 0 := by
  refine ⟨compute_layout_ids_range root, ?_, ?_, ?_⟩
  · rw [compute_layout_ids_range root]
    exact List.nodup_range _
  · intro e he
    have he' : e ∈ collect_edges (placed_root root) := he
    have hmem := collect_edges_mem (placed_root root) e he'
    rw [← compute_layout_map_node_id root] at hmem
    rcases List.mem_map.1 hmem.1 with ⟨n1, hn1, hid1⟩
    rcases List.mem_map.1 hmem.2 with ⟨n2, hn2, hid2⟩
    exact ⟨⟨n1, hn1, hid1⟩, ⟨n2, hn2, hid2⟩⟩
  · obtain ⟨r, rest, hn, hid, htitle, hdepth⟩ := compute_layout_head root
    exact ⟨r, rest, hn, by rw [hid, placed_root_node_id],
      by rw [htitle, placed_root_title], by rw [hdepth, placed_root_depth]⟩

/-- Witness for C5 at a concrete heading-plus-bullets document. -/
theorem c5_unique_ids_valid_edges_witness :
    parse_mind_map_markdown ["# T", "- A", "- B"] =
      some (MindMapNode.mk "T" [MindMapNode.mk "A" [], MindMapNode.mk "B" []]) ∧
    ((compute_layout (MindMapNode.mk "T" [MindMapNode.mk "A" [], MindMapNode.mk "B" []])).nodes.map
        (fun n => n.node_id) =
      List.range (compute_layout
        (MindMapNode.mk "T" [MindMapNode.mk "A" [], MindMapNode.mk "B" []])).nodes.length ∧
    ((compute_layout (MindMapNode.mk "T" [MindMapNode.mk "A" [], MindMapNode.mk "B" []])).nodes.map
        (fun n => n.node_id)).Nodup ∧
    (∀ e ∈ (compute_layout (MindMapNode.mk "T" [MindMapNode.mk "A" [], MindMapNode.mk "B" []])).edges,
      (∃ n ∈ (compute_layout
          (MindMapNode.mk "T" [MindMapNode.mk "A" [], MindMapNode.mk "B" []])).nodes,
        n.node_id = e.1) ∧
      (∃ n ∈ (compute_layout
          (MindMapNode.mk "T" [MindMapNode.mk "A" [], MindMapNode.mk "B" []])).nodes,
        n.node_id = e.2)) ∧
    ∃ r rest, (compute_layout
        (MindMapNode.mk "T" [MindMapNode.mk "A" [], MindMapNode.mk "B" []])).nodes = r :: rest ∧
      r.node_id = 0 ∧
      r.title = (MindMapNode.mk "T" [MindMapNode.mk "A" [], MindMapNode.mk "B" []]).title ∧
      r.depth = 0) :=
  ⟨rfl, c5_unique_ids_valid_edges ["# T", "- A", "- B"]
    (MindMapNode.mk "T" [MindMapNode.mk "A" [], MindMapNode.mk "B" []]) rfl⟩

/-! ### C1: non-overlap of the placed boxes -/

theorem place_run_nil (gap side : ℚ) (dep : Nat) (start : ℚ) :
    place_run gap side dep [] start = [] := rfl

theorem place_run_cons (gap side : ℚ) (dep : Nat) (c : RNode) (rest : List RNode)
    (start : ℚ) :
    place_run gap side dep (c :: rest) start =
      place_subtree c side dep (start + subtree_height c / 2) ::
        place_run gap side dep rest (start + subtree_height c + gap) := rfl

theorem subtree_height_nil (d : RData) : subtree_height (RNode.mk d []) = d.height := rfl

theorem subtree_height_cons (d : RData) (c : RNode) (rest : List RNode) :
    subtree_height (RNode.mk d (c :: rest)) =
      max d.height (run_total V_GAP (c :: rest)) := by
  rw [subtree_height, run_total]
  rfl

theorem run_total_cons (gap : ℚ) (c : RNode) (rest : List RNode) :
    run_total gap (c :: rest) = subtree_height c + gap + run_total gap rest := by
  rw [run_total, run_total, sh_list, List.length_cons]
  push_cast
  ring

theorem run_total_single (gap : ℚ) (c : RNode) :
    run_total gap [c] = subtree_height c := by
  rw [run_total, sh_list, sh_list]
  norm_num

theorem data_height_le_subtree (t : RNode) : t.data.height ≤ subtree_height t := by
  rcases t with ⟨d, cs⟩
  cases cs with
  | nil => exact le_of_eq (subtree_height_nil d).symm
  | cons c rest =>
    rw [subtree_height_cons]
    exact le_max_left _ _

theorem OK_forest_mem : ∀ (cs : List RNode), OK_forest cs ↔ ∀ c ∈ cs, OK_tree c := by
  intro cs
  induction cs with
  | nil =>
    rw [OK_forest]
    simp
  | cons c rest ih =>
    rw [OK_forest]
    constructor
    · rintro ⟨h1, h2⟩ x hx
      rcases List.mem_cons.1 hx with rfl | hx'
      · exact h1
      · exact (ih.1 h2) x hx'
    · intro h
      exact ⟨h c (by simp), ih.2 (fun x hx => h x (by simp [hx]))⟩

theorem OK_tree_iff (t : RNode) : OK_tree t ↔
    (40 ≤ t.data.height ∧ t.data.height ≤ 110 ∧
      135 ≤ t.data.width ∧ t.data.width ≤ 360) ∧ OK_forest t.children := by
  rcases t with ⟨d, cs⟩
  rw [OK_tree]
  exact Iff.rfl

theorem OK_sh40 (t : RNode) (h : OK_tree t) : 40 ≤ subtree_height t := by
  have h1 : (40 : ℚ) ≤ t.data.height := ((OK_tree_iff t).1 h).1.1
  exact le_trans h1 (data_height_le_subtree t)

theorem sh_list_lb : ∀ (cs : List RNode), OK_forest cs →
    40 * (cs.length : ℚ) ≤ sh_list cs := by
  intro cs
  induction cs with
  | nil =>
    intro _
    rw [sh_list]
    simp
  | cons c rest ih =>
    intro h
    rw [OK_forest] at h
    rw [sh_list, List.length_cons]
    push_cast
    have h1 := OK_sh40 c h.1
    have h2 := ih h.2
    linarith

theorem sh_list_ge_mem : ∀ (cs : List RNode), OK_forest cs → ∀ c ∈ cs,
    subtree_height c + 40 * ((cs.length : ℚ) - 1) ≤ sh_list cs := by
  intro cs
  induction cs with
  | nil =>
    intro _ c hc
    simp at hc
  | cons x rest ih =>
    intro h c hc
    rw [OK_forest] at h
    rw [sh_list, List.length_cons]
    push_cast
    rcases List.mem_cons.1 hc with rfl | hc'
    · have h2 := sh_list_lb rest h.2
      linarith
    · have h1 := ih h.2 c hc'
      have h2 := OK_sh40 x h.1
      linarith

theorem dev_window (v s h : ℚ) (hh : 40 ≤ h)
    (hd : |v - (s + h / 2)| ≤ max 0 (h / 2 - 53)) :
    s + 20 ≤ v ∧ v ≤ s + h - 20 := by
  rcases abs_le.1 hd with ⟨h1, h2⟩
  rcases le_total (h / 2 - 53) 0 with hc | hc
  · rw [max_eq_left hc] at h1 h2
    constructor <;> linarith
  · rw [max_eq_right hc] at h1 h2
    constructor <;> linarith

theorem parent_box (Y cy S h : ℚ) (hdev : |Y - cy| ≤ max 0 (S / 2 - 53))
    (hh1 : 40 ≤ h) (hh2 : h ≤ 110) (hhS : h ≤ S) :
    cy - S / 2 - 2 ≤ Y - h / 2 ∧ Y + h / 2 ≤ cy + S / 2 + 2 := by
  rcases abs_le.1 hdev with ⟨h1, h2⟩
  rcases le_total (S / 2 - 53) 0 with hc | hc
  · rw [max_eq_left hc] at h1 h2
    constructor <;> linarith
  · rw [max_eq_right hc] at h1 h2
    constructor <;> linarith

theorem boxes_disjoint_symm : Symmetric boxes_disjoint := by
  intro a b h
  unfold boxes_disjoint at h ⊢
  tauto

theorem boxes_disjoint_shift (a b : PositionedNode) (sx sy : ℚ)
    (h : boxes_disjoint a b) :
    boxes_disjoint { a with x := a.x + sx, y := a.y + sy }
      { b with x := b.x + sx, y := b.y + sy } := by
  unfold boxes_disjoint at h ⊢
  rcases h with h | h | h | h
  · exact Or.inl (show a.x + sx + a.width / 2 < b.x + sx - b.width / 2 by linarith)
  · exact Or.inr (Or.inl (show b.x + sx + b.width / 2 < a.x + sx - a.width / 2 by linarith))
  · exact Or.inr (Or.inr (Or.inl
      (show a.y + sy + a.height / 2 < b.y + sy - b.height / 2 by linarith)))
  · exact Or.inr (Or.inr (Or.inr
      (show b.y + sy + b.height / 2 < a.y + sy - a.height / 2 by linarith)))

theorem col_disjoint (side : ℚ) (hside : side = 1 ∨ side = -1) (p q : PositionedNode)
    (k₁ k₂ : Nat) (hx1 : p.x = side * (k₁ : ℚ) * H_STEP)
    (hx2 : q.x = side * (k₂ : ℚ) * H_STEP) (hk : k₁ < k₂)
    (hw1 : p.width ≤ 360) (hw2 : q.width ≤ 360) :
    boxes_disjoint p q := by
  have hk' : (k₁ : ℚ) + 1 ≤ (k₂ : ℚ) := by exact_mod_cast hk
  have hstep : (420 : ℚ) * ((k₁ : ℚ) + 1) ≤ 420 * (k₂ : ℚ) := by linarith
  rw [H_STEP] at hx1 hx2
  unfold boxes_disjoint
  rcases hside with rfl | rfl
  · left
    rw [hx1, hx2]
    nlinarith
  · right; left
    rw [hx1, hx2]
    nlinarith

theorem list_sum_le (l : List ℚ) (B : ℚ) (h : ∀ y ∈ l, y ≤ B) :
    l.sum ≤ (l.length : ℚ) * B := by
  induction l with
  | nil => simp
  | cons x t ih =>
    rw [List.sum_cons, List.length_cons]
    have h1 := h x (by simp)
    have h2 := ih (fun y hy => h y (by simp [hy]))
    have he : ((t.length + 1 : ℕ) : ℚ) * B = (t.length : ℚ) * B + B := by
      push_cast
      ring
    rw [he]
    linarith

theorem list_le_sum (l : List ℚ) (B : ℚ) (h : ∀ y ∈ l, B ≤ y) :
    (l.length : ℚ) * B ≤ l.sum := by
  induction l with
  | nil => simp
  | cons x t ih =>
    rw [List.sum_cons, List.length_cons]
    have h1 := h x (by simp)
    have h2 := ih (fun y hy => h y (by simp [hy]))
    have he : ((t.length + 1 : ℕ) : ℚ) * B = (t.length : ℚ) * B + B := by
      push_cast
      ring
    rw [he]
    linarith

theorem getLast?_decomp {α : Type} : ∀ (l : List α) (v : α),
    l.getLast? = some v → ∃ l', l = l' ++ [v] := by
  intro l
  induction l with
  | nil =>
    intro v h
    exact absurd h (by simp)
  | cons x t ih =>
    intro v h
    cases t with
    | nil =>
      have hx : x = v := by simpa using h
      exact ⟨[], by simp [hx]⟩
    | cons y s =>
      rw [List.getLast?_cons_cons] at h
      obtain ⟨l', hl⟩ := ih v h
      exact ⟨x :: l', by rw [hl]; rfl⟩

theorem place_run_length : ∀ (cs : List RNode) (gap side : ℚ) (dep : Nat) (start : ℚ),
    (place_run gap side dep cs start).length = cs.length := by
  intro cs
  induction cs with
  | nil =>
    intro gap side dep start
    rfl
  | cons c rest ih =>
    intro gap side dep start
    rw [place_run_cons]
    simp [ih]

theorem decorate_visit_children_eq (title : String) (cs : List MindMapNode) (d n : Nat) :
    (decorate_visit (.mk title cs) d n).1.children =
      (decorate_children cs (d + 1) (n + 1)).1 := rfl

theorem OK_decorate_children (cs : List MindMapNode)
    (ih : ∀ c ∈ cs, ∀ (d n : Nat), OK_tree (decorate_visit c d n).1) :
    ∀ (d n : Nat), OK_forest (decorate_children cs d n).1 := by
  induction cs with
  | nil =>
    intro d n
    exact trivial
  | cons c rest ihr =>
    intro d n
    show OK_forest ((decorate_visit c d n).1 ::
      (decorate_children rest d (decorate_visit c d n).2).1)
    rw [OK_forest]
    exact ⟨ih c (by simp) d n, ihr (fun x hx => ih x (by simp [hx])) d _⟩

theorem OK_decorate (t : MindMapNode) : ∀ (d n : Nat), OK_tree (decorate_visit t d n).1 := by
  induction t using MindMapNode.mindmap_mem_ind with
  | h title cs ih =>
    intro d n
    rw [OK_tree_iff]
    refine ⟨?_, ?_⟩
    · have hb := decorate_visit_width_bounds (MindMapNode.mk title cs) d n
      exact ⟨hb.2.2.1, hb.2.2.2, hb.1, hb.2.1⟩
    · rw [decorate_visit_children_eq]
      exact OK_decorate_children cs ih (d + 1) (n + 1)

theorem select_side_subset (b : Bool) : ∀ (fs : List Bool) (cs : List RNode),
    ∀ x ∈ select_side b fs cs, x ∈ cs := by
  intro fs
  induction fs with
  | nil =>
    intro cs x hx
    have h0 : select_side b ([] : List Bool) cs = [] := by
      cases cs with
      | nil => rfl
      | cons c t => rfl
    rw [h0] at hx
    exact absurd hx (List.not_mem_nil x)
  | cons f fs ih =>
    intro cs x hx
    cases cs with
    | nil =>
      have h0 : select_side b (f :: fs) ([] : List RNode) = [] := rfl
      rw [h0] at hx
      exact absurd hx (List.not_mem_nil x)
    | cons c t =>
      rw [select_side] at hx
      by_cases hf : f = b
      · rw [if_pos hf] at hx
        rcases List.mem_cons.1 hx with rfl | hx'
        · exact List.mem_cons_self _ _
        · exact List.mem_cons_of_mem _ (ih t x hx')
      · rw [if_neg hf] at hx
        exact List.mem_cons_of_mem _ (ih t x hx)

theorem select_side_length (b : Bool) : ∀ (fs : List Bool) (cs : List RNode),
    fs.length = cs.length → (select_side b fs cs).length = fs.count b := by
  intro fs
  induction fs with
  | nil =>
    intro cs h
    have h0 : select_side b ([] : List Bool) cs = [] := by
      cases cs with
      | nil => rfl
      | cons c t => rfl
    rw [h0]
    simp
  | cons f fs ih =>
    intro cs h
    cases cs with
    | nil => simp at h
    | cons c t =>
      have ht : fs.length = t.length := by simpa using h
      rw [select_side]
      by_cases hf : f = b
      · rw [if_pos hf, List.length_cons, ih t ht, List.count_cons]
        simp [hf]
      · rw [if_neg hf, ih t ht, List.count_cons]
        simp [hf]

theorem collect_list_merge_perm : ∀ (fs : List Bool) (ls rs : List RNode),
    ls.length = fs.count true → rs.length = fs.count false →
    List.Perm (collect_list (merge_sides fs ls rs))
      (collect_list ls ++ collect_list rs) := by
  intro fs
  induction fs with
  | nil =>
    intro ls rs hl hr
    have hls : ls = [] := List.length_eq_zero.1 (by simpa using hl)
    have hrs : rs = [] := List.length_eq_zero.1 (by simpa using hr)
    subst hls
    subst hrs
    exact List.Perm.refl _
  | cons f fs ih =>
    intro ls rs hl hr
    cases f with
    | true =>
      cases ls with
      | nil => simp [List.count_cons] at hl
      | cons l ls' =>
        have hl' : ls'.length = fs.count true := by
          simp [List.count_cons] at hl
          omega
        have hr' : rs.length = fs.count false := by
          simpa [List.count_cons] using hr
        show List.Perm (collect_list (l :: merge_sides fs ls' rs))
          (collect_list (l :: ls') ++ collect_list rs)
        rw [collect_list, collect_list, List.append_assoc]
        exact (ih ls' rs hl' hr').append_left _
    | false =>
      cases rs with
      | nil => simp [List.count_cons] at hr
      | cons r rs' =>
        have hl' : ls.length = fs.count true := by
          simpa [List.count_cons] using hl
        have hr' : rs'.length = fs.count false := by
          simp [List.count_cons] at hr
          omega
        show List.Perm (collect_list (r :: merge_sides fs ls rs'))
          (collect_list ls ++ collect_list (r :: rs'))
        rw [collect_list, collect_list]
        refine ((ih ls rs' hl' hr').append_left (collect_nodes r)).trans ?_
        have e1 : collect_nodes r ++ (collect_list ls ++ collect_list rs') =
            (collect_nodes r ++ collect_list ls) ++ collect_list rs' :=
          (List.append_assoc _ _ _).symm
        have e2 : (collect_list ls ++ collect_nodes r) ++ collect_list rs' =
            collect_list ls ++ (collect_nodes r ++ collect_list rs') :=
          List.append_assoc _ _ _
        rw [e1, ← e2]
        exact (List.perm_append_comm).append_right _

theorem run_total_lb (gap : ℚ) (hgap : 26 ≤ gap) (cs : List RNode) (hok : OK_forest cs)
    (hne : cs ≠ []) : 40 ≤ run_total gap cs := by
  have hlb := sh_list_lb cs hok
  rw [run_total]
  have hlen : 1 ≤ cs.length := by
    cases cs with
    | nil => exact absurd rfl hne
    | cons x t => simp
  have hlenq : (1 : ℚ) ≤ (cs.length : ℚ) := by exact_mod_cast hlen
  have hprod : 0 ≤ gap * ((cs.length : ℚ) - 1) := mul_nonneg (by linarith) (by linarith)
  linarith

theorem place_run_spec_holds : ∀ (cs : List RNode),
    (∀ c ∈ cs, OK_tree c → ∀ (side : ℚ), (side = 1 ∨ side = -1) →
      ∀ (dep : Nat) (cy : ℚ), place_tree_spec c side dep cy) →
    OK_forest cs → ∀ (gap side : ℚ), 26 ≤ gap → (side = 1 ∨ side = -1) →
    ∀ (dep : Nat) (start : ℚ), place_run_spec cs gap side dep start := by
  intro cs
  induction cs with
  | nil =>
    intro _ _ gap side hgap hside dep start
    unfold place_run_spec
    refine ⟨?_, ?_, ?_, ?_, ?_, ?_⟩
    · intro p hp
      rw [place_run_nil] at hp
      exact absurd hp (List.not_mem_nil p)
    · intro y hy
      rw [place_run_nil] at hy
      exact absurd hy (List.not_mem_nil y)
    · intro c rest h
      exact absurd h (by simp)
    · intro h
      exact absurd rfl h
    · rfl
    · rw [place_run_nil]
      exact List.Pairwise.nil
  | cons c rest ihr =>
    intro ih hok gap side hgap hside dep start
    rw [OK_forest] at hok
    obtain ⟨hokc, hokrest⟩ := hok
    have hsh40 : (40 : ℚ) ≤ subtree_height c := OK_sh40 c hokc
    have tspec := ih c (by simp) hokc side hside dep (start + subtree_height c / 2)
    have rspec := ihr (fun x hx => ih x (by simp [hx])) hokrest gap side hgap hside dep
      (start + subtree_height c + gap)
    unfold place_tree_spec at tspec
    unfold place_run_spec at rspec
    obtain ⟨tsall, tsdev, tspair⟩ := tspec
    obtain ⟨rsall, rsy, rshead, rslast, rslen, rspair⟩ := rspec
    have hT : run_total gap (c :: rest) = subtree_height c + gap + run_total gap rest :=
      run_total_cons gap c rest
    have hTge : subtree_height c ≤ run_total gap (c :: rest) := by
      cases rest with
      | nil =>
        rw [run_total_single]
      | cons r rs =>
        have h40 := run_total_lb gap hgap (r :: rs) hokrest (by simp)
        rw [hT]
        linarith
    have hwin := dev_window (root_y (place_subtree c side dep
      (start + subtree_height c / 2))) start (subtree_height c) hsh40 tsdev
    unfold place_run_spec
    refine ⟨?_, ?_, ?_, ?_, ?_, ?_⟩
    · intro p hp
      rw [place_run_cons, collect_list] at hp
      rcases List.mem_append.1 hp with h | h
      · obtain ⟨hcol, hsize, hband⟩ := tsall p h
        obtain ⟨hb1, hb2⟩ := hband
        refine ⟨hcol, hsize, ⟨by linarith, by linarith⟩⟩
      · obtain ⟨hcol, hsize, hband⟩ := rsall p h
        obtain ⟨hb1, hb2⟩ := hband
        refine ⟨hcol, hsize, ⟨by linarith, by linarith⟩⟩
    · intro y hy
      rw [place_run_cons, List.map_cons] at hy
      rcases List.mem_cons.1 hy with rfl | hy'
      · exact ⟨hwin.1, by linarith [hwin.2]⟩
      · obtain ⟨hy1, hy2⟩ := rsy y hy'
        exact ⟨by linarith, by linarith⟩
    · intro c0 rest0 heq
      injection heq with h1 h2
      subst h1
      subst h2
      refine ⟨root_y (place_subtree c side dep (start + subtree_height c / 2)), ?_, tsdev⟩
      rw [place_run_cons, List.map_cons, List.head?_cons]
    · intro _
      cases rest with
      | nil =>
        refine ⟨root_y (place_subtree c side dep (start + subtree_height c / 2)), c,
          ?_, by simp, ?_⟩
        · rw [place_run_cons, place_run_nil, List.map_cons, List.map_nil]
          rfl
        · rw [run_total_single]
          have he : start + subtree_height c - subtree_height c / 2 =
              start + subtree_height c / 2 := by ring
          rw [he]
          exact tsdev
      | cons r rs =>
        obtain ⟨v, cl, hgl, hclmem, hdev⟩ := rslast (by simp)
        refine ⟨v, cl, ?_, List.mem_cons_of_mem _ hclmem, ?_⟩
        · have hcons : ∃ z zs, (place_run gap side dep (r :: rs)
              (start + subtree_height c + gap)).map root_y = z :: zs := by
            rw [place_run_cons, List.map_cons]
            exact ⟨_, _, rfl⟩
          obtain ⟨z, zs, hz⟩ := hcons
          rw [place_run_cons, List.map_cons, hz, List.getLast?_cons_cons, ← hz]
          exact hgl
        · have he : start + run_total gap (c :: r :: rs) - subtree_height cl / 2 =
              start + subtree_height c + gap + run_total gap (r :: rs) -
                subtree_height cl / 2 := by
            rw [run_total_cons]
            ring
          rw [he]
          exact hdev
    · rw [place_run_cons]
      simp [place_run_length]
    · rw [place_run_cons, collect_list]
      rw [List.pairwise_append]
      refine ⟨tspair, rspair, ?_⟩
      intro a ha b hb
      obtain ⟨_, _, hba⟩ := tsall a ha
      obtain ⟨_, _, hbb⟩ := rsall b hb
      obtain ⟨_, hba2⟩ := hba
      obtain ⟨hbb1, _⟩ := hbb
      unfold boxes_disjoint
      right; right; left
      linarith

theorem mean_window (ys tail l' : List ℚ) (v1 v2 cy T sh1 shl N : ℚ)
    (hys1 : ys = v1 :: tail) (hys2 : ys = l' ++ [v2])
    (hall : ∀ y ∈ ys, cy - T / 2 + 20 ≤ y ∧ y ≤ cy - T / 2 + T - 20)
    (hv1 : v1 ≤ cy - T / 2 + sh1 - 20)
    (hv2 : cy - T / 2 + T - shl + 20 ≤ v2)
    (hT1 : sh1 + 66 * (N - 1) ≤ T) (hT2 : shl + 66 * (N - 1) ≤ T)
    (hN : (ys.length : ℚ) = N) (hN2 : 2 ≤ N) :
    |ys.sum / (ys.length : ℚ) - cy| ≤ T / 2 - 53 := by
  have hN0 : (0 : ℚ) < N := by linarith
  have hlen1 : (tail.length : ℚ) = N - 1 := by
    have h := congrArg List.length hys1
    rw [List.length_cons] at h
    rw [h] at hN
    push_cast at hN
    linarith
  have hlen2 : (l'.length : ℚ) = N - 1 := by
    have h := congrArg List.length hys2
    rw [List.length_append, List.length_cons, List.length_nil] at h
    rw [h] at hN
    push_cast at hN
    linarith
  have hsum1 : ys.sum = v1 + tail.sum := by rw [hys1, List.sum_cons]
  have hsum2 : ys.sum = l'.sum + v2 := by
    rw [hys2, List.sum_append, List.sum_cons, List.sum_nil]
    ring
  have htub : tail.sum ≤ (tail.length : ℚ) * (cy - T / 2 + T - 20) :=
    list_sum_le _ _ (fun y hy => (hall y (by rw [hys1]; exact List.mem_cons_of_mem _ hy)).2)
  have hllb : (l'.length : ℚ) * (cy - T / 2 + 20) ≤ l'.sum :=
    list_le_sum _ _ (fun y hy => (hall y (by rw [hys2]; exact List.mem_append_left _ hy)).1)
  rw [hN, abs_le]
  constructor
  · have hsl : (cy - T / 2 + 53) * N ≤ ys.sum := by
      rw [hsum2]
      rw [hlen2] at hllb
      nlinarith [hT2, hN2, hv2, hllb]
    have hdiv := (le_div_iff hN0).2 hsl
    linarith
  · have hsu : ys.sum ≤ (cy + T / 2 - 53) * N := by
      rw [hsum1]
      rw [hlen1] at htub
      nlinarith [hT1, hN2, hv1, htub]
    have hdiv := (div_le_iff hN0).2 hsu
    linarith

theorem place_tree_spec_holds (t : RNode) :
    OK_tree t → ∀ (side : ℚ), (side = 1 ∨ side = -1) →
    ∀ (dep : Nat) (cy : ℚ), place_tree_spec t side dep cy := by
  induction t using RNode.rnode_mem_ind with
  | h d cs ih =>
    intro hok side hside dep cy
    rw [OK_tree] at hok
    obtain ⟨hbd, hokf⟩ := hok
    cases cs with
    | nil =>
      unfold place_tree_spec
      rw [place_subtree_nil]
      refine ⟨?_, ?_, ?_⟩
      · intro p hp
        rw [collect_nodes, collect_list] at hp
        rcases List.mem_cons.1 hp with rfl | hp'
        · refine ⟨⟨dep, le_rfl, rfl⟩, ⟨hbd.1, hbd.2.1, hbd.2.2.1, hbd.2.2.2⟩, ?_, ?_⟩
          · show cy - subtree_height (RNode.mk d []) / 2 - 2 ≤ cy - d.height / 2
            rw [subtree_height_nil]
            linarith
          · show cy + d.height / 2 ≤ cy + subtree_height (RNode.mk d []) / 2 + 2
            rw [subtree_height_nil]
            linarith
        · exact absurd hp' (List.not_mem_nil p)
      · have h0 : root_y (RNode.mk
            { d with x := side * (dep : ℚ) * H_STEP, y := cy } []) = cy := rfl
        rw [h0, sub_self, abs_zero]
        exact le_max_left 0 _
      · rw [collect_nodes, collect_list]
        simp
    | cons c rest =>
      have hVgap : (26 : ℚ) ≤ V_GAP := by norm_num [V_GAP]
      have rspec := place_run_spec_holds (c :: rest) ih hokf V_GAP side hVgap hside (dep + 1)
        (cy - run_total V_GAP (c :: rest) / 2)
      unfold place_run_spec at rspec
      obtain ⟨rsall, rsy, rshead, rslast, rslen, rspair⟩ := rspec
      have hokc : OK_tree c := (OK_forest_mem (c :: rest)).1 hokf c (by simp)
      have hshc40 : (40 : ℚ) ≤ subtree_height c := OK_sh40 c hokc
      have hry : root_y (place_subtree (RNode.mk d (c :: rest)) side dep cy) =
          ((place_run V_GAP side (dep + 1) (c :: rest)
            (cy - run_total V_GAP (c :: rest) / 2)).map root_y).sum /
          (((place_run V_GAP side (dep + 1) (c :: rest)
            (cy - run_total V_GAP (c :: rest) / 2)).map root_y).length : ℚ) := by
        rw [place_subtree_cons]
        rfl
      have hcn : collect_nodes (place_subtree (RNode.mk d (c :: rest)) side dep cy) =
          (⟨d.node_id, d.title, d.lines, d.depth, side * (dep : ℚ) * H_STEP,
            root_y (place_subtree (RNode.mk d (c :: rest)) side dep cy), d.width, d.height⟩ :
            PositionedNode) ::
          collect_list (place_run V_GAP side (dep + 1) (c :: rest)
            (cy - run_total V_GAP (c :: rest) / 2)) := by
        rw [place_subtree_cons, collect_nodes]
        rfl
      have hdev : |root_y (place_subtree (RNode.mk d (c :: rest)) side dep cy) - cy| ≤
          max 0 (max d.height (run_total V_GAP (c :: rest)) / 2 - 53) := by
        rw [hry]
        cases rest with
        | nil =>
          rw [place_run_cons, place_run_nil, List.map_cons, List.map_nil, List.sum_cons,
            List.sum_nil, List.length_cons, List.length_nil]
          have hden : (((0 + 1 : ℕ)) : ℚ) = 1 := by norm_num
          rw [hden, div_one, add_zero]
          obtain ⟨v, hh, hd1⟩ := rshead c [] rfl
          rw [place_run_cons, place_run_nil, List.map_cons, List.map_nil,
            List.head?_cons] at hh
          rw [← Option.some.inj hh] at hd1
          have he : cy - run_total V_GAP [c] / 2 + subtree_height c / 2 = cy := by
            rw [run_total_single]
            ring
          rw [he] at hd1 ⊢
          refine le_trans hd1 (max_le_max le_rfl ?_)
          linarith [le_max_right d.height (run_total V_GAP [c]), run_total_single V_GAP c]
        | cons r rs =>
          obtain ⟨v1, hh, hd1⟩ := rshead c (r :: rs) rfl
          obtain ⟨v2, cl, hgl, hcl, hd2⟩ := rslast (by simp)
          have hoklist := (OK_forest_mem (c :: r :: rs)).1 hokf
          have hshcl40 : (40 : ℚ) ≤ subtree_height cl := OK_sh40 cl (hoklist cl hcl)
          have hw1 := (dev_window v1 (cy - run_total V_GAP (c :: r :: rs) / 2)
            (subtree_height c) hshc40 hd1).2
          have hd2' : |v2 - (cy - run_total V_GAP (c :: r :: rs) / 2 +
              run_total V_GAP (c :: r :: rs) - subtree_height cl + subtree_height cl / 2)| ≤
              max 0 (subtree_height cl / 2 - 53) := by
            have he : cy - run_total V_GAP (c :: r :: rs) / 2 +
                run_total V_GAP (c :: r :: rs) - subtree_height cl + subtree_height cl / 2 =
                cy - run_total V_GAP (c :: r :: rs) / 2 +
                run_total V_GAP (c :: r :: rs) - subtree_height cl / 2 := by
              ring
            rw [he]
            exact hd2
          have hw2 := (dev_window v2 (cy - run_total V_GAP (c :: r :: rs) / 2 +
            run_total V_GAP (c :: r :: rs) - subtree_height cl)
            (subtree_height cl) hshcl40 hd2').1
          have hv1eq : root_y (place_subtree c side (dep + 1)
              (cy - run_total V_GAP (c :: r :: rs) / 2 + subtree_height c / 2)) = v1 := by
            rw [place_run_cons, List.map_cons, List.head?_cons] at hh
            exact Option.some.inj hh
          have hys1 : (place_run V_GAP side (dep + 1) (c :: r :: rs)
              (cy - run_total V_GAP (c :: r :: rs) / 2)).map root_y =
              v1 :: (place_run V_GAP side (dep + 1) (r :: rs)
                (cy - run_total V_GAP (c :: r :: rs) / 2 + subtree_height c +
                  V_GAP)).map root_y := by
            rw [place_run_cons, List.map_cons, hv1eq]
          obtain ⟨l', hys2⟩ := getLast?_decomp _ v2 hgl
          have hT1 : subtree_height c + 66 * ((((c :: r :: rs).length : ℕ) : ℚ) - 1) ≤
              run_total V_GAP (c :: r :: rs) := by
            have hs := sh_list_ge_mem (c :: r :: rs) hokf c (by simp)
            rw [run_total, V_GAP]
            linarith
          have hT2 : subtree_height cl + 66 * ((((c :: r :: rs).length : ℕ) : ℚ) - 1) ≤
              run_total V_GAP (c :: r :: rs) := by
            have hs := sh_list_ge_mem (c :: r :: rs) hokf cl hcl
            rw [run_total, V_GAP]
            linarith
          have hN : (((place_run V_GAP side (dep + 1) (c :: r :: rs)
              (cy - run_total V_GAP (c :: r :: rs) / 2)).map root_y).length : ℚ) =
              (((c :: r :: rs).length : ℕ) : ℚ) := by
            rw [List.length_map, place_run_length]
          have hN2 : (2 : ℚ) ≤ (((c :: r :: rs).length : ℕ) : ℚ) := by
            rw [List.length_cons, List.length_cons]
            push_cast
            have hnn : (0 : ℚ) ≤ (rs.length : ℚ) := by positivity
            linarith
          have hmean := mean_window _ _ l' v1 v2 cy (run_total V_GAP (c :: r :: rs))
            (subtree_height c) (subtree_height cl) (((c :: r :: rs).length : ℕ) : ℚ)
            hys1 hys2 rsy hw1 hw2 hT1 hT2 hN hN2
          refine le_trans hmean (le_trans ?_ (le_max_right 0 _))
          have hmx := le_max_right d.height (run_total V_GAP (c :: r :: rs))
          linarith
      unfold place_tree_spec
      rw [subtree_height_cons]
      refine ⟨?_, hdev, ?_⟩
      · intro p hp
        rw [hcn] at hp
        rcases List.mem_cons.1 hp with rfl | hp'
        · refine ⟨⟨dep, le_rfl, rfl⟩, ⟨hbd.1, hbd.2.1, hbd.2.2.1, hbd.2.2.2⟩, ?_⟩
          have hpb := parent_box
            (root_y (place_subtree (RNode.mk d (c :: rest)) side dep cy)) cy
            (max d.height (run_total V_GAP (c :: rest))) d.height hdev hbd.1 hbd.2.1
            (le_max_left _ _)
          exact ⟨hpb.1, hpb.2⟩
        · obtain ⟨⟨k, hk, hxk⟩, hsize, hband⟩ := rsall p hp'
          obtain ⟨hb1, hb2⟩ := hband
          refine ⟨⟨k, le_trans (Nat.le_succ dep) hk, hxk⟩, hsize, ?_⟩
          have hTS : run_total V_GAP (c :: rest) ≤
              max d.height (run_total V_GAP (c :: rest)) := le_max_right _ _
          exact ⟨by linarith, by linarith⟩
      · rw [hcn, List.pairwise_cons]
        refine ⟨?_, rspair⟩
        intro b hb
        obtain ⟨⟨k, hk, hbx⟩, hbsize, _⟩ := rsall b hb
        exact col_disjoint side hside _ b dep k rfl hbx
          (lt_of_lt_of_le (Nat.lt_succ_self dep) hk) hbd.2.2.2 hbsize.2.2.2

theorem placed_root_pairwise (rn : MindMapNode) :
    List.Pairwise boxes_disjoint (collect_nodes (placed_root rn)) := by
  have hok : OK_tree (decorate_tree rn) := by
    show OK_tree (decorate_visit rn 0 0).1
    exact OK_decorate rn 0 0
  rcases hdt : decorate_tree rn with ⟨d, cs⟩
  rw [hdt, OK_tree] at hok
  obtain ⟨hbd, hokf⟩ := hok
  rw [placed_root, hdt]
  cases cs with
  | nil =>
    show List.Pairwise boxes_disjoint
      (collect_nodes (RNode.mk { d with x := (0 : ℚ), y := (0 : ℚ) } []))
    rw [collect_nodes, collect_list]
    simp
  | cons c rest =>
    show List.Pairwise boxes_disjoint
      (collect_nodes (RNode.mk { d with x := (0 : ℚ), y := (0 : ℚ) }
        (merge_sides (side_flags (c :: rest))
          (place_side_list (split_top_level_children (c :: rest)).1 (-1))
          (place_side_list (split_top_level_children (c :: rest)).2 1))))
    rw [collect_nodes]
    have hT : (split_top_level_children (c :: rest)).1 =
        select_side true (side_flags (c :: rest)) (c :: rest) := by rw [split_select]
    have hF : (split_top_level_children (c :: rest)).2 =
        select_side false (side_flags (c :: rest)) (c :: rest) := by rw [split_select]
    have hfl : (side_flags (c :: rest)).length = (c :: rest).length := side_flags_length _
    have hokmem := (OK_forest_mem (c :: rest)).1 hokf
    have hokT : OK_forest (select_side true (side_flags (c :: rest)) (c :: rest)) :=
      (OK_forest_mem _).2 (fun x hx => hokmem x (select_side_subset true _ _ x hx))
    have hokF : OK_forest (select_side false (side_flags (c :: rest)) (c :: rest)) :=
      (OK_forest_mem _).2 (fun x hx => hokmem x (select_side_subset false _ _ x hx))
    have hgap : (26 : ℚ) ≤ TOP_LEVEL_GAP := by norm_num [TOP_LEVEL_GAP]
    have lspec := place_run_spec_holds
      (select_side true (side_flags (c :: rest)) (c :: rest))
      (fun x _ => place_tree_spec_holds x) hokT TOP_LEVEL_GAP (-1) hgap (Or.inr rfl) 1
      (-(run_total TOP_LEVEL_GAP
        (select_side true (side_flags (c :: rest)) (c :: rest))) / 2)
    have rspec2 := place_run_spec_holds
      (select_side false (side_flags (c :: rest)) (c :: rest))
      (fun x _ => place_tree_spec_holds x) hokF TOP_LEVEL_GAP 1 hgap (Or.inl rfl) 1
      (-(run_total TOP_LEVEL_GAP
        (select_side false (side_flags (c :: rest)) (c :: rest))) / 2)
    unfold place_run_spec at lspec rspec2
    obtain ⟨lall, _, _, _, llen, lpair⟩ := lspec
    obtain ⟨rall, _, _, _, rlen, rpair⟩ := rspec2
    have hpl : place_side_list (split_top_level_children (c :: rest)).1 (-1) =
        place_run TOP_LEVEL_GAP (-1) 1
          (select_side true (side_flags (c :: rest)) (c :: rest))
          (-(run_total TOP_LEVEL_GAP
            (select_side true (side_flags (c :: rest)) (c :: rest))) / 2) := by
      rw [hT, place_side_list]
    have hpr : place_side_list (split_top_level_children (c :: rest)).2 1 =
        place_run TOP_LEVEL_GAP 1 1
          (select_side false (side_flags (c :: rest)) (c :: rest))
          (-(run_total TOP_LEVEL_GAP
            (select_side false (side_flags (c :: rest)) (c :: rest))) / 2) := by
      rw [hF, place_side_list]
    have hcount_true :
        (place_side_list (split_top_level_children (c :: rest)).1 (-1)).length =
        (side_flags (c :: rest)).count true := by
      rw [hpl, place_run_length, select_side_length true _ _ hfl]
    have hcount_false :
        (place_side_list (split_top_level_children (c :: rest)).2 1).length =
        (side_flags (c :: rest)).count false := by
      rw [hpr, place_run_length, select_side_length false _ _ hfl]
    have hperm := collect_list_merge_perm (side_flags (c :: rest)) _ _
      hcount_true hcount_false
    have happ : List.Pairwise boxes_disjoint
        (collect_list (place_side_list (split_top_level_children (c :: rest)).1 (-1)) ++
         collect_list (place_side_list (split_top_level_children (c :: rest)).2 1)) := by
      rw [List.pairwise_append]
      refine ⟨?_, ?_, ?_⟩
      · rw [hpl]
        exact lpair
      · rw [hpr]
        exact rpair
      · intro a ha b hb
        rw [hpl] at ha
        rw [hpr] at hb
        obtain ⟨⟨k1, hk1, hx1⟩, hs1, _⟩ := lall a ha
        obtain ⟨⟨k2, hk2, hx2⟩, hs2, _⟩ := rall b hb
        unfold boxes_disjoint
        left
        rw [hx1, hx2, H_STEP]
        have hq1 : (1 : ℚ) ≤ (k1 : ℚ) := by exact_mod_cast hk1
        have hq2 : (1 : ℚ) ≤ (k2 : ℚ) := by exact_mod_cast hk2
        have hw1 := hs1.2.2.2
        have hw2 := hs2.2.2.2
        linarith
    have hmergepair : List.Pairwise boxes_disjoint
        (collect_list (merge_sides (side_flags (c :: rest))
          (place_side_list (split_top_level_children (c :: rest)).1 (-1))
          (place_side_list (split_top_level_children (c :: rest)).2 1))) :=
      (hperm.pairwise_iff (fun {a b} h => boxes_disjoint_symm h)).2 happ
    rw [List.pairwise_cons]
    refine ⟨?_, hmergepair⟩
    intro b hb
    have hb' := (hperm.mem_iff).1 hb
    rcases List.mem_append.1 hb' with hbl | hbr
    · rw [hpl] at hbl
      obtain ⟨⟨k, hk, hbx⟩, hbs, _⟩ := lall b hbl
      unfold boxes_disjoint
      right; left
      rw [hbx, H_STEP]
      have hq : (1 : ℚ) ≤ (k : ℚ) := by exact_mod_cast hk
      have hwb := hbs.2.2.2
      show -1 * (k : ℚ) * 420 + b.width / 2 < 0 - d.width / 2
      linarith [hbd.2.2.2]
    · rw [hpr] at hbr
      obtain ⟨⟨k, hk, hbx⟩, hbs, _⟩ := rall b hbr
      unfold boxes_disjoint
      left
      rw [hbx, H_STEP]
      have hq : (1 : ℚ) ≤ (k : ℚ) := by exact_mod_cast hk
      have hwb := hbs.2.2.2
      show (0 : ℚ) + d.width / 2 < 1 * (k : ℚ) * 420 - b.width / 2
      linarith [hbd.2.2.2]

/-- C1: for every markdown input that parses to a tree, no two node boxes
in the final normalized layout overlap: the node list is pairwise
`boxes_disjoint`, i.e. for every pair of distinct nodes either their
x-extents (`x ± width/2`) or their y-extents (`y ± height/2`) are
(strictly) disjoint. -/
theorem c1_no_overlap (lines : List String) (root : MindMapNode)
    (hp : parse_mind_map_markdown lines = some root) :
    List.Pairwise boxes_disjoint (compute_layout root).nodes := by
  have hpw := placed_root_pairwise root
  have h0 : (compute_layout root).nodes =
      (normalize_bounds (collect_nodes (placed_root root))).2.2 := rfl
  rw [h0, normalize_nodes_eq, List.pairwise_map]
  refine hpw.imp ?_
  intro a b hab
  exact boxes_disjoint_shift a b _ _ hab

/-- Witness for C1 at a concrete two-bullet document. -/
theorem c1_no_overlap_witness :
    parse_mind_map_markdown ["- A", "- B"] =
      some (MindMapNode.mk "Mind Map" [MindMapNode.mk "A" [], MindMapNode.mk "B" []]) ∧
    List.Pairwise boxes_disjoint (compute_layout
      (MindMapNode.mk "Mind Map" [MindMapNode.mk "A" [], MindMapNode.mk "B" []])).nodes :=
  ⟨rfl, c1_no_overlap ["- A", "- B"]
    (MindMapNode.mk "Mind Map" [MindMapNode.mk "A" [], MindMapNode.mk "B" []]) rfl⟩

end NoteStream
